import Mathlib

/-!
# Verification of the PyVmt LTL/LTLf encoder pipeline

A shallow embedding of the core of the `pyvmt` library: the formula kernel with
LTL operators and the `NEXT` marker (`pyvmt/operators.py`), the transition-model
container (`pyvmt/model.py`, `pyvmt/properties.py`), synchronous composition
(`pyvmt/composer.py`), and the four tableau encoders (`pyvmt/ltl_encoder.py`).

Formula nodes are modelled by the inductive type `Fm` (pysmt `FNode`s are an
untyped hash-consed union; typing is recovered by `Fm.typeOf`).  Symbols are
modelled by `Sym`: user-created symbols carry their declared type, while
`pysmt.FormulaManager.FreshSymbol` symbols carry the printf template used at the
creation site together with the value of the environment's monotonic counter
(the counter is shared between all templates, which matches the behaviour of
pysmt's fresh-symbol generator).  Freshness of fresh symbols with respect to
user symbols is structural.

Fallible operations (`pyvmt` raises exceptions) return `Except PyErr`.
Python's `set` iteration order is unspecified; sets of variables are modelled
as insertion-ordered duplicate-free lists, a deterministic refinement.  The
walkers of pysmt memoize on the formula DAG; the embedding uses plain
structural recursion, which produces the same elementary maps and sat values
because every fresh-symbol allocation is guarded by a map lookup.  Insertion
order of elementary entries may differ from CPython's stack-driven traversal
order (CPython processes children in reverse); no statement below depends on
the allocation order of fresh symbols.
-/

set_option maxHeartbeats 1000000
set_option linter.unusedVariables false
set_option synthInstance.maxSize 1000
set_option synthInstance.maxHeartbeats 1000000

namespace Pyvmt

deriving instance DecidableEq for Except

/-- The pysmt types used by the embedded fragment. -/
inductive Ty
  | bool
  | int
deriving DecidableEq, Repr

/-- Symbols: user symbols carry a name (as a number) and a type; fresh symbols
(created through `FreshSymbol`) carry the template string of the creation site
and the value of the environment's shared monotonic counter.  Every fresh
symbol created by the encoders has type Bool. -/
inductive Sym
  | user (n : Nat) (ty : Ty)
  | fresh (tmpl : String) (k : Nat)
deriving DecidableEq, Repr

/-- The type of a symbol. -/
def Sym.ty : Sym → Ty
  | .user _ t => t
  | .fresh _ _ => .bool

/-- `True` when the symbol was created by `FreshSymbol`. -/
def Sym.isFresh : Sym → Bool
  | .user _ _ => false
  | .fresh _ _ => true

/-- The counter value of a fresh symbol (`0` for user symbols). -/
def Sym.idx : Sym → Nat
  | .user _ _ => 0
  | .fresh _ k => k

/-- Formula nodes, the embedded counterpart of pysmt `FNode`s extended with the
pyvmt node types of `pyvmt/operators.py`: the twelve LTL operators
(`LTL_X`, `LTL_N`, `LTL_F`, `LTL_G`, `LTL_U`, `LTL_R`, `LTL_Y`, `LTL_Z`,
`LTL_O`, `LTL_H`, `LTL_S`, `LTL_T`) and the `NEXT` marker.  The Boolean and
arithmetic fragment is restricted to the node kinds exercised by the claims:
symbols, the constants, binary And/Or/Iff/Implies, Not, ITE, integer equality
(for the `x = 0` atom) and the two quantifiers. -/
inductive Fm
  | va (s : Sym)
  | top
  | bot
  | num (n : Nat)
  | neg (a : Fm)
  | conj (a b : Fm)
  | disj (a b : Fm)
  | biimp (a b : Fm)
  | impl (a b : Fm)
  | fite (c a b : Fm)
  | eqn (a b : Fm)
  | exq (v : Sym) (a : Fm)
  | alq (v : Sym) (a : Fm)
  | nxt (a : Fm)
  | lx (a : Fm)
  | ln (a : Fm)
  | lf (a : Fm)
  | lg (a : Fm)
  | lu (a b : Fm)
  | lr (a b : Fm)
  | ly (a : Fm)
  | lz (a : Fm)
  | lo (a : Fm)
  | lh (a : Fm)
  | ls (a b : Fm)
  | lt (a b : Fm)
deriving DecidableEq, Repr

namespace Fm

/-- `FormulaManager.Not`: pysmt's `Not` collapses a double negation
(`Not(Not(a))` returns `a`); otherwise it creates a `NOT` node. -/
def mkNot : Fm → Fm
  | .neg a => a
  | f => .neg f

/-- `FormulaManager.And` applied to a list (as in `make_single_justice`):
`And([])` is `TRUE`, `And([x])` is `x` itself, longer lists conjoin
left-to-right (pysmt builds one n-ary node; the claims only exercise lists of
length at most one, where both agree). -/
def bigAnd : List Fm → Fm
  | [] => .top
  | [x] => x
  | x :: xs => xs.foldl (fun acc y => .conj acc y) x

/-- `has_next` oracle (`HasNextOperatorWalker`): whether a formula contains the
`NEXT` operator. -/
def hasNext : Fm → Bool
  | .va _ | .top | .bot | .num _ => false
  | .neg a => hasNext a
  | .conj a b | .disj a b | .biimp a b | .impl a b | .eqn a b => hasNext a || hasNext b
  | .fite c a b => hasNext c || hasNext a || hasNext b
  | .exq _ a | .alq _ a => hasNext a
  | .nxt _ => true
  | .lx a | .ln a | .lf a | .lg a | .ly a | .lz a | .lo a | .lh a => hasNext a
  | .lu a b | .lr a b | .ls a b | .lt a b => hasNext a || hasNext b

/-- `has_ltl` oracle (`HasLtlOperatorsWalker`): whether a formula contains an
LTL operator (the `NEXT` marker is not an LTL operator). -/
def hasLtl : Fm → Bool
  | .va _ | .top | .bot | .num _ => false
  | .neg a => hasLtl a
  | .conj a b | .disj a b | .biimp a b | .impl a b | .eqn a b => hasLtl a || hasLtl b
  | .fite c a b => hasLtl c || hasLtl a || hasLtl b
  | .exq _ a | .alq _ a => hasLtl a
  | .nxt a => hasLtl a
  | .lx _ | .ln _ | .lf _ | .lg _ | .ly _ | .lz _ | .lo _ | .lh _ => true
  | .lu _ _ | .lr _ _ | .ls _ _ | .lt _ _ => true

/-- The free variables of a formula (`FreeVarsOracle`); quantifiers bind their
variable. The result may contain duplicates; only membership is ever used. -/
def freeVars : Fm → List Sym
  | .va s => [s]
  | .top | .bot | .num _ => []
  | .neg a => freeVars a
  | .conj a b | .disj a b | .biimp a b | .impl a b | .eqn a b => freeVars a ++ freeVars b
  | .fite c a b => freeVars c ++ freeVars a ++ freeVars b
  | .exq v a | .alq v a => (freeVars a).filter (fun s => s ≠ v)
  | .nxt a => freeVars a
  | .lx a | .ln a | .lf a | .lg a | .ly a | .lz a | .lo a | .lh a => freeVars a
  | .lu a b | .lr a b | .ls a b | .lt a b => freeVars a ++ freeVars b

/-- The `SimpleTypeChecker` of pysmt extended as in `pyvmt/operators.py`:
LTL operators take Bool arguments and yield Bool, `NEXT(x)` has the type of
`x`.  `none` marks an ill-typed formula (pysmt refuses to build such nodes). -/
def typeOf : Fm → Option Ty
  | .va s => some s.ty
  | .top | .bot => some .bool
  | .num _ => some .int
  | .neg a => if typeOf a = some .bool then some .bool else none
  | .conj a b | .disj a b | .biimp a b | .impl a b =>
      if typeOf a = some .bool ∧ typeOf b = some .bool then some .bool else none
  | .eqn a b =>
      if typeOf a = some .int ∧ typeOf b = some .int then some .bool else none
  | .fite c a b =>
      if typeOf c = some .bool ∧ typeOf a = typeOf b ∧ (typeOf a).isSome
      then typeOf a else none
  | .exq _ a | .alq _ a => if typeOf a = some .bool then some .bool else none
  | .nxt a => typeOf a
  | .lx a | .ln a | .lf a | .lg a | .ly a | .lz a | .lo a | .lh a =>
      if typeOf a = some .bool then some .bool else none
  | .lu a b | .lr a b | .ls a b | .lt a b =>
      if typeOf a = some .bool ∧ typeOf b = some .bool then some .bool else none

/-- `FNode.arg(0)`: the first child of a node (the node itself for leaves;
only ever applied to unary LTL nodes by the encoders). -/
def argZeroD : Fm → Fm
  | .neg a => a
  | .conj a _ | .disj a _ | .biimp a _ | .impl a _ | .eqn a _ => a
  | .fite c _ _ => c
  | .exq _ a | .alq _ a => a
  | .nxt a => a
  | .lx a | .ln a | .lf a | .lg a | .ly a | .lz a | .lo a | .lh a => a
  | .lu a _ | .lr a _ | .ls a _ | .lt a _ => a
  | f => f

/-- `FNode.arg(1)`: the second child of a binary node. -/
def argOneD : Fm → Fm
  | .conj _ b | .disj _ b | .biimp _ b | .impl _ b | .eqn _ b => b
  | .fite _ a _ => a
  | .lu _ b | .lr _ b | .ls _ b | .lt _ b => b
  | f => f

/-- Whether the head node is the Until operator (`LTL_U`). -/
def isU : Fm → Bool
  | .lu _ _ => true
  | _ => false

/-- Whether the head node is the strong next operator (`LTL_X`). -/
def isLX : Fm → Bool
  | .lx _ => true
  | _ => false

/-- Whether the head node is a future LTL operator
(`FUTURE_LTL = (LTL_X, LTL_N, LTL_F, LTL_G, LTL_U, LTL_R)`). -/
def isFutureLtl : Fm → Bool
  | .lx _ | .ln _ | .lf _ | .lg _ | .lu _ _ | .lr _ _ => true
  | _ => false

/-- Whether the head node is a past LTL operator
(`PAST_LTL = (LTL_Y, LTL_Z, LTL_O, LTL_H, LTL_S, LTL_T)`). -/
def isPastLtl : Fm → Bool
  | .ly _ | .lz _ | .lo _ | .lh _ | .ls _ _ | .lt _ _ => true
  | _ => false

end Fm

/-- The pyvmt exception kinds relevant to the embedded fragment
(`pyvmt/exceptions.py`), together with the two Python-level errors the
reference implementation can raise (`NotImplementedError`, and `NameError` for
a reference to an unbound name). -/
inductive PyErr
  | notSymbol
  | duplicateDeclaration
  | undeclaredSymbol
  | stateVariableErr
  | unexpectedLtl
  | unexpectedNext
  | pyvmtType
  | invalidPropertyIdx
  | duplicatePropertyIdx
  | propertyNotFound
  | invalidPropertyType
  | mismatchedEnvironment
  | notImplemented
  | nameError
deriving DecidableEq, Repr

/-- The property kinds of `pyvmt/properties.py`. -/
inductive PropKind
  | invar
  | live
  | ltl
  | ltlf
deriving DecidableEq, Repr

open Fm

/-- The transition-model container (`pyvmt/model.py`, class `Model`).
`_state_vars` and `_inputs` are Python sets with unspecified iteration order;
they are modelled as insertion-ordered duplicate-free lists.  `_properties`
is an insertion-ordered dict, modelled as an association list from index to
`(kind, formula)`. -/
structure Model where
  stateVars : List Sym
  inputVars : List Sym
  init : List Fm
  trans : List Fm
  props : List (Nat × PropKind × Fm)
  nextPropIdx : Nat
deriving DecidableEq, Repr

namespace Model

/-- `Model.is_state_variable`. -/
def isStateVariable (m : Model) (s : Sym) : Bool := s ∈ m.stateVars

/-- `Model.is_input_variable`. -/
def isInputVariable (m : Model) (s : Sym) : Bool := s ∈ m.inputVars

/-- `Model._is_declared`. -/
def isDeclared (m : Model) (s : Sym) : Bool :=
  m.isInputVariable s || m.isStateVariable s

/-- `Model.add_state_var`: the argument is a symbol by construction (the
`NotSymbolError` branch cannot fire in the embedding); a symbol already
declared as state or input raises `DuplicateDeclarationError`. -/
def add_state_var (m : Model) (s : Sym) : Except PyErr Model :=
  if m.isDeclared s then .error .duplicateDeclaration
  else .ok { m with stateVars := m.stateVars ++ [s] }

/-- `Model.add_input_var`. -/
def add_input_var (m : Model) (s : Sym) : Except PyErr Model :=
  if m.isDeclared s then .error .duplicateDeclaration
  else .ok { m with inputVars := m.inputVars ++ [s] }

/-- `Model.add_init` (`model.py` lines 204-229).  The four checks are
performed in source order: every free variable must be a declared state
variable, the formula must contain no LTL operator, no `NEXT` operator, and
must be of Bool type; on success the formula is appended to the init list. -/
def add_init (m : Model) (f : Fm) : Except PyErr Model :=
  if ¬ (f.freeVars.all (fun s => m.isStateVariable s)) then .error .stateVariableErr
  else if f.hasLtl then .error .unexpectedLtl
  else if f.hasNext then .error .unexpectedNext
  else if f.typeOf ≠ some .bool then .error .pyvmtType
  else .ok { m with init := m.init ++ [f] }

/-- `Model.add_trans` (`model.py` lines 231-248), with its source check
order: all free variables declared (state or input), Bool type, no LTL. -/
def add_trans (m : Model) (f : Fm) : Except PyErr Model :=
  if ¬ (f.freeVars.all (fun s => m.isDeclared s)) then .error .undeclaredSymbol
  else if f.typeOf ≠ some .bool then .error .pyvmtType
  else if f.hasLtl then .error .unexpectedLtl
  else .ok { m with trans := m.trans ++ [f] }

/-- Whether a property index is unused (`Model._is_property_idx_free`). -/
def isPropertyIdxFree (m : Model) (idx : Nat) : Bool :=
  (m.props.find? (fun p => p.1 = idx)).isNone

/-- `Model._get_free_property_idx`: advance `_next_property_idx` past the
occupied indices.  The `while` loop terminates because at most
`m.props.length` indices are occupied; `fuel` makes this structural. -/
def firstFreeIdx (m : Model) (k : Nat) : Nat → Nat
  | 0 => k
  | fuel + 1 => if m.isPropertyIdxFree k then k else m.firstFreeIdx (k + 1) fuel

/-- `VmtProperty.__init__` checks (`properties.py` lines 55-72): the kind is
always in the closed set by construction; the formula must be Bool; LTL
operators are forbidden unless the kind is `ltl` or `ltlf`. -/
def vmtPropertyOk (pt : PropKind) (f : Fm) : Except PyErr Unit :=
  if f.typeOf ≠ some .bool then .error .pyvmtType
  else if pt ≠ .ltl ∧ pt ≠ .ltlf ∧ f.hasLtl then .error .unexpectedLtl
  else .ok ()

/-- `Model.add_property` (`model.py` lines 269-290).  When no index is passed
a fresh one is generated and `_next_property_idx` advances; an explicit index
must be free.  All free variables of the formula must be declared.  Returns
the new model together with the property index. -/
def addPropertyCore (m : Model) (pt : PropKind) (f : Fm) (i : Nat) :
    Except PyErr (Model × Nat) :=
  if ¬ m.isPropertyIdxFree i then .error .duplicatePropertyIdx
  else if ¬ (f.freeVars.all (fun s => m.isDeclared s)) then .error .undeclaredSymbol
  else
    match vmtPropertyOk pt f with
    | .error e => .error e
    | .ok _ => .ok ({ m with props := m.props ++ [(i, pt, f)] }, i)

def add_property (m : Model) (pt : PropKind) (f : Fm) (idx : Option Nat) :
    Except PyErr (Model × Nat) :=
  match idx with
  | some i => addPropertyCore m pt f i
  | none =>
      let i := m.firstFreeIdx m.nextPropIdx (m.props.length + 1)
      addPropertyCore { m with nextPropIdx := i + 1 } pt f i

/-- `Model.add_invar_property`. -/
def add_invar_property (m : Model) (f : Fm) : Except PyErr (Model × Nat) :=
  m.add_property .invar f none

/-- `Model.add_live_property`. -/
def add_live_property (m : Model) (f : Fm) : Except PyErr (Model × Nat) :=
  m.add_property .live f none

/-- The names imported into the module scope of `model.py` from
`pyvmt.properties` (`model.py` line 31):
`VmtProperty, INVAR_PROPERTY, LIVE_PROPERTY, LTL_PROPERTY`. -/
def modelModulePropertyImports : List String :=
  ["VmtProperty", "INVAR_PROPERTY", "LIVE_PROPERTY", "LTL_PROPERTY"]

/-- `Model.add_ltlf_property` (`model.py` lines 337-350).  Its body refers to
the module-level name `LTLF_PROPERTY`, which is neither defined in `model.py`
nor among the names imported on line 31, so Python raises `NameError` before
`add_property` runs.  The embedding guards the call on the resolvability of
the name in the module scope. -/
def add_ltlf_property (m : Model) (f : Fm) (idx : Option Nat) :
    Except PyErr (Model × Nat) :=
  if "LTLF_PROPERTY" ∈ modelModulePropertyImports then
    m.add_property .ltlf f idx
  else .error .nameError

/-- The well-formedness invariant maintained by the `Model` construction API:
variable lists are duplicate-free and disjoint, every init constraint passes
the `add_init` checks and every trans constraint passes the `add_trans`
checks. -/
def wf (m : Model) : Prop :=
  m.stateVars.Nodup ∧ m.inputVars.Nodup ∧
  (∀ s ∈ m.stateVars, s ∉ m.inputVars) ∧
  (∀ f ∈ m.init,
    f.freeVars.all (fun s => m.isStateVariable s) ∧
    f.hasLtl = false ∧ f.hasNext = false ∧ f.typeOf = some .bool) ∧
  (∀ f ∈ m.trans,
    f.freeVars.all (fun s => m.isDeclared s) ∧
    f.typeOf = some .bool ∧ f.hasLtl = false)

instance : DecidablePred wf := fun m => by
  unfold wf
  infer_instance

/-- The empty model (`Model()`). -/
def empty : Model := ⟨[], [], [], [], [], 0⟩

end Model

/-- `compose`'s per-model constraint transfer (`composer.py` lines 72-78):
init constraints, then trans constraints, then properties of one component
are added to the accumulator. -/
def composeAdd (src : Model) (acc : Model) : Except PyErr Model := do
  let acc ← src.init.foldlM (fun m f => m.add_init f) acc
  let acc ← src.trans.foldlM (fun m f => m.add_trans f) acc
  let acc ← src.props.foldlM
    (fun m p => do let (m, _) ← m.add_property p.2.1 p.2.2 (some p.1); pure m) acc
  pure acc

/-- `compose` (`composer.py` lines 23-80): synchronous composition.  The
environment check is vacuous in the embedding (a single environment).  State
variables of both models are added one by one (duplicates raise); the inputs
are collected as a set, the combined state variables removed, and the rest
added; finally constraints and properties of both models are transferred. -/
def compose (ma mb : Model) : Except PyErr Model := do
  let m ← (ma.stateVars ++ mb.stateVars).foldlM
    (fun m s => m.add_state_var s) Model.empty
  let allInputs := (ma.inputVars ++ mb.inputVars).dedup.filter
    (fun s => ¬ m.isStateVariable s)
  let m ← allInputs.foldlM (fun m s => m.add_input_var s) m
  let m ← composeAdd ma m
  let m ← composeAdd mb m
  pure m

/-! ## Rewriters (`pyvmt/operators.py`, `pyvmt/ltl_encoder.py`) -/

/-- `LtlRewriter` (`ltl_encoder.py` lines 32-78): normalizes the LTL
operators to the `X`, `U`, `Y`, `S` basis, bottom-up:
`fRg -> Not(Not f U Not g)`, `Ff -> T U f`, `Gf -> Not(T U Not f)`,
`Zf -> Not(Y Not f)`, `fTg -> Not(Not f S Not g)`, `Of -> T S f`,
`Hf -> Not(T S Not f)`, `Nf -> Not(X Not f)`; all negations go through
`FormulaManager.Not` (`mkNot`).  Other nodes are rebuilt unchanged (the
rewriter introduces no `NEXT`, so the nested-next check of the `NEXT`
reconstruction cannot fire on a well-formed input). -/
def ltlRewrite : Fm → Fm
  | .va s => .va s
  | .top => .top
  | .bot => .bot
  | .num n => .num n
  | .neg a => mkNot (ltlRewrite a)
  | .conj a b => .conj (ltlRewrite a) (ltlRewrite b)
  | .disj a b => .disj (ltlRewrite a) (ltlRewrite b)
  | .biimp a b => .biimp (ltlRewrite a) (ltlRewrite b)
  | .impl a b => .impl (ltlRewrite a) (ltlRewrite b)
  | .fite c a b => .fite (ltlRewrite c) (ltlRewrite a) (ltlRewrite b)
  | .eqn a b => .eqn (ltlRewrite a) (ltlRewrite b)
  | .exq v a => .exq v (ltlRewrite a)
  | .alq v a => .alq v (ltlRewrite a)
  | .nxt a => .nxt (ltlRewrite a)
  | .lx a => .lx (ltlRewrite a)
  | .ln a => mkNot (.lx (mkNot (ltlRewrite a)))
  | .lf a => .lu .top (ltlRewrite a)
  | .lg a => mkNot (.lu .top (mkNot (ltlRewrite a)))
  | .lu a b => .lu (ltlRewrite a) (ltlRewrite b)
  | .lr a b => mkNot (.lu (mkNot (ltlRewrite a)) (mkNot (ltlRewrite b)))
  | .ly a => .ly (ltlRewrite a)
  | .lz a => mkNot (.ly (mkNot (ltlRewrite a)))
  | .lo a => .ls .top (ltlRewrite a)
  | .lh a => mkNot (.ls .top (mkNot (ltlRewrite a)))
  | .ls a b => .ls (ltlRewrite a) (ltlRewrite b)
  | .lt a b => mkNot (.ls (mkNot (ltlRewrite a)) (mkNot (ltlRewrite b)))

/-- `NNFIzer` (`operators.py` lines 421-471 over pysmt's `NNFizer`): pushes
negations to the atoms.  `nnfA f true` is the conversion of `f` in positive
polarity, `nnfA f false` the conversion of `Not f`.  LTL dualities follow
`NNFIzer.walk_not`: `X/N`, `G/F`, `U/R`, `Y/Z`, `H/O`, `S/T` swap under
negation and `Not(NEXT f) = NEXT(Not f)`; the Boolean connectives follow
pysmt's `NNFizer` (`Implies(a,b)` becomes `Or(Not a, b)`, `Iff(a,b)` becomes
`And(Or(Not a, b), Or(Not b, a))`, its negation
`Or(And(a, Not b), And(Not a, b))`); a negated theory atom or ITE stays a
negation (via `mkNot`). -/
def nnfA : Fm → Bool → Fm
  | .va s, true => .va s
  | .va s, false => mkNot (.va s)
  | .top, true => .top
  | .top, false => mkNot .top
  | .bot, true => .bot
  | .bot, false => mkNot .bot
  | .num n, true => .num n
  | .num n, false => mkNot (.num n)
  | .eqn a b, true => .eqn a b
  | .eqn a b, false => mkNot (.eqn a b)
  | .fite c a b, true => .fite c a b
  | .fite c a b, false => mkNot (.fite c a b)
  | .neg a, pol => nnfA a (!pol)
  | .conj a b, true => .conj (nnfA a true) (nnfA b true)
  | .conj a b, false => .disj (nnfA a false) (nnfA b false)
  | .disj a b, true => .disj (nnfA a true) (nnfA b true)
  | .disj a b, false => .conj (nnfA a false) (nnfA b false)
  | .impl a b, true => .disj (nnfA a false) (nnfA b true)
  | .impl a b, false => .conj (nnfA a true) (nnfA b false)
  | .biimp a b, true =>
      .conj (.disj (nnfA a false) (nnfA b true)) (.disj (nnfA b false) (nnfA a true))
  | .biimp a b, false =>
      .disj (.conj (nnfA a true) (nnfA b false)) (.conj (nnfA a false) (nnfA b true))
  | .exq v a, true => .exq v (nnfA a true)
  | .exq v a, false => .alq v (nnfA a false)
  | .alq v a, true => .alq v (nnfA a true)
  | .alq v a, false => .exq v (nnfA a false)
  | .nxt a, pol => .nxt (nnfA a pol)
  | .lx a, true => .lx (nnfA a true)
  | .lx a, false => .ln (nnfA a false)
  | .ln a, true => .ln (nnfA a true)
  | .ln a, false => .lx (nnfA a false)
  | .lg a, true => .lg (nnfA a true)
  | .lg a, false => .lf (nnfA a false)
  | .lf a, true => .lf (nnfA a true)
  | .lf a, false => .lg (nnfA a false)
  | .lu a b, true => .lu (nnfA a true) (nnfA b true)
  | .lu a b, false => .lr (nnfA a false) (nnfA b false)
  | .lr a b, true => .lr (nnfA a true) (nnfA b true)
  | .lr a b, false => .lu (nnfA a false) (nnfA b false)
  | .ly a, true => .ly (nnfA a true)
  | .ly a, false => .lz (nnfA a false)
  | .lz a, true => .lz (nnfA a true)
  | .lz a, false => .ly (nnfA a false)
  | .lh a, true => .lh (nnfA a true)
  | .lh a, false => .lo (nnfA a false)
  | .lo a, true => .lo (nnfA a true)
  | .lo a, false => .lh (nnfA a false)
  | .ls a b, true => .ls (nnfA a true) (nnfA b true)
  | .ls a b, false => .lt (nnfA a false) (nnfA b false)
  | .lt a b, true => .lt (nnfA a true) (nnfA b true)
  | .lt a b, false => .ls (nnfA a false) (nnfA b false)

/-- `NNFIzer.convert`. -/
def nnfConvert (f : Fm) : Fm := nnfA f true

/-! ## `NextPusher` (`operators.py` lines 352-419) -/

/-- The `mgr.Next` guard of the child-distribution step
(`args = tuple(mgr.Next(x) for x in sub.args())`): `FormulaManager.Next`
raises `UnexpectedNextError` when the argument contains a `NEXT`. -/
def ckNoNext (f : Fm) : Except PyErr Unit :=
  if f.hasNext then .error .unexpectedNext else .ok ()

/-- The walk of a `NEXT(f)` node in `NextPusher` (`_get_children` override
plus `walk_next`): the `NEXT` is distributed over the children of `f`, the
rebuilt child is walked recursively, and `walk_next` keeps `NEXT` only on a
symbol leaf that is not quantifier-bound (a bound symbol loses the `NEXT`).
A `NEXT` directly below raises `UnexpectedNextError`; re-wrapping a child
that still contains a `NEXT` raises through `mgr.Next`.  `B` is the
bound-variable set. -/
def pushNextOn (B : List Sym) : Fm → Except PyErr Fm
  | .va s => .ok (if s ∈ B then .va s else .nxt (.va s))
  | .top => .ok .top
  | .bot => .ok .bot
  | .num n => .ok (.num n)
  | .nxt _ => .error .unexpectedNext
  | .neg a => do
      let _ ← ckNoNext a
      let ra ← pushNextOn B a
      .ok (.neg ra)
  | .conj a b => do
      let _ ← ckNoNext a; let _ ← ckNoNext b
      let ra ← pushNextOn B a; let rb ← pushNextOn B b
      .ok (.conj ra rb)
  | .disj a b => do
      let _ ← ckNoNext a; let _ ← ckNoNext b
      let ra ← pushNextOn B a; let rb ← pushNextOn B b
      .ok (.disj ra rb)
  | .biimp a b => do
      let _ ← ckNoNext a; let _ ← ckNoNext b
      let ra ← pushNextOn B a; let rb ← pushNextOn B b
      .ok (.biimp ra rb)
  | .impl a b => do
      let _ ← ckNoNext a; let _ ← ckNoNext b
      let ra ← pushNextOn B a; let rb ← pushNextOn B b
      .ok (.impl ra rb)
  | .fite c a b => do
      let _ ← ckNoNext c; let _ ← ckNoNext a; let _ ← ckNoNext b
      let rc ← pushNextOn B c; let ra ← pushNextOn B a; let rb ← pushNextOn B b
      .ok (.fite rc ra rb)
  | .eqn a b => do
      let _ ← ckNoNext a; let _ ← ckNoNext b
      let ra ← pushNextOn B a; let rb ← pushNextOn B b
      .ok (.eqn ra rb)
  | .exq v a => do
      let _ ← ckNoNext a
      let ra ← pushNextOn (v :: B) a
      .ok (.exq v ra)
  | .alq v a => do
      let _ ← ckNoNext a
      let ra ← pushNextOn (v :: B) a
      .ok (.alq v ra)
  | .lx a => do
      let _ ← ckNoNext a
      let ra ← pushNextOn B a
      .ok (.lx ra)
  | .ln a => do
      let _ ← ckNoNext a
      let ra ← pushNextOn B a
      .ok (.ln ra)
  | .lf a => do
      let _ ← ckNoNext a
      let ra ← pushNextOn B a
      .ok (.lf ra)
  | .lg a => do
      let _ ← ckNoNext a
      let ra ← pushNextOn B a
      .ok (.lg ra)
  | .ly a => do
      let _ ← ckNoNext a
      let ra ← pushNextOn B a
      .ok (.ly ra)
  | .lz a => do
      let _ ← ckNoNext a
      let ra ← pushNextOn B a
      .ok (.lz ra)
  | .lo a => do
      let _ ← ckNoNext a
      let ra ← pushNextOn B a
      .ok (.lo ra)
  | .lh a => do
      let _ ← ckNoNext a
      let ra ← pushNextOn B a
      .ok (.lh ra)
  | .lu a b => do
      let _ ← ckNoNext a; let _ ← ckNoNext b
      let ra ← pushNextOn B a; let rb ← pushNextOn B b
      .ok (.lu ra rb)
  | .lr a b => do
      let _ ← ckNoNext a; let _ ← ckNoNext b
      let ra ← pushNextOn B a; let rb ← pushNextOn B b
      .ok (.lr ra rb)
  | .ls a b => do
      let _ ← ckNoNext a; let _ ← ckNoNext b
      let ra ← pushNextOn B a; let rb ← pushNextOn B b
      .ok (.ls ra rb)
  | .lt a b => do
      let _ ← ckNoNext a; let _ ← ckNoNext b
      let ra ← pushNextOn B a; let rb ← pushNextOn B b
      .ok (.lt ra rb)

/-- The main walk of `NextPusher` over bound set `B`: recurse through the
formula, extending the bound set at quantifiers (a sub-walker is created with
the extended set), and handle every `NEXT` node through `pushNextOn`. -/
def pushNextB (B : List Sym) : Fm → Except PyErr Fm
  | .va s => .ok (.va s)
  | .top => .ok .top
  | .bot => .ok .bot
  | .num n => .ok (.num n)
  | .nxt a => pushNextOn B a
  | .neg a => do .ok (.neg (← pushNextB B a))
  | .conj a b => do .ok (.conj (← pushNextB B a) (← pushNextB B b))
  | .disj a b => do .ok (.disj (← pushNextB B a) (← pushNextB B b))
  | .biimp a b => do .ok (.biimp (← pushNextB B a) (← pushNextB B b))
  | .impl a b => do .ok (.impl (← pushNextB B a) (← pushNextB B b))
  | .fite c a b => do
      .ok (.fite (← pushNextB B c) (← pushNextB B a) (← pushNextB B b))
  | .eqn a b => do .ok (.eqn (← pushNextB B a) (← pushNextB B b))
  | .exq v a => do .ok (.exq v (← pushNextB (v :: B) a))
  | .alq v a => do .ok (.alq v (← pushNextB (v :: B) a))
  | .lx a => do .ok (.lx (← pushNextB B a))
  | .ln a => do .ok (.ln (← pushNextB B a))
  | .lf a => do .ok (.lf (← pushNextB B a))
  | .lg a => do .ok (.lg (← pushNextB B a))
  | .ly a => do .ok (.ly (← pushNextB B a))
  | .lz a => do .ok (.lz (← pushNextB B a))
  | .lo a => do .ok (.lo (← pushNextB B a))
  | .lh a => do .ok (.lh (← pushNextB B a))
  | .lu a b => do .ok (.lu (← pushNextB B a) (← pushNextB B b))
  | .lr a b => do .ok (.lr (← pushNextB B a) (← pushNextB B b))
  | .ls a b => do .ok (.ls (← pushNextB B a) (← pushNextB B b))
  | .lt a b => do .ok (.lt (← pushNextB B a) (← pushNextB B b))

/-- `NextPusher.push_next`: the walk with an empty bound set. -/
def push_next (f : Fm) : Except PyErr Fm := pushNextB [] f

/-- A formula has a nested `NEXT` when some `NEXT` node has a `NEXT` in its
subtree. -/
def hasNestedNext : Fm → Bool
  | .va _ | .top | .bot | .num _ => false
  | .nxt a => a.hasNext || hasNestedNext a
  | .neg a => hasNestedNext a
  | .conj a b | .disj a b | .biimp a b | .impl a b | .eqn a b =>
      hasNestedNext a || hasNestedNext b
  | .fite c a b => hasNestedNext c || hasNestedNext a || hasNestedNext b
  | .exq _ a | .alq _ a => hasNestedNext a
  | .lx a | .ln a | .lf a | .lg a | .ly a | .lz a | .lo a | .lh a => hasNestedNext a
  | .lu a b | .lr a b | .ls a b | .lt a b => hasNestedNext a || hasNestedNext b

/-- Every `NEXT` in the formula wraps a symbol leaf (the leaf form the
NEXT-pusher is specified to establish). -/
def nextAtLeaves : Fm → Bool
  | .va _ | .top | .bot | .num _ => true
  | .nxt (.va _) => true
  | .nxt _ => false
  | .neg a => nextAtLeaves a
  | .conj a b | .disj a b | .biimp a b | .impl a b | .eqn a b =>
      nextAtLeaves a && nextAtLeaves b
  | .fite c a b => nextAtLeaves c && nextAtLeaves a && nextAtLeaves b
  | .exq _ a | .alq _ a => nextAtLeaves a
  | .lx a | .ln a | .lf a | .lg a | .ly a | .lz a | .lo a | .lh a => nextAtLeaves a
  | .lu a b | .lr a b | .ls a b | .lt a b => nextAtLeaves a && nextAtLeaves b

/-! ## `IsSafetyLtl` (`operators.py` lines 332-350) -/

/-- The walk of the `IsSafetyLtl` walker.  The two handler registrations of
the source overlap on `op.ALL_TYPES`; pysmt resolves the overlap in favour of
the handler registered last (`walk_other`), so `walk_live` (constant `True`)
remains attached exactly to `LTL_U` and `LTL_F` and every other node returns
the disjunction of its children (`walk_any`). -/
def isSafetyWalk : Fm → Bool
  | .lu _ _ => true
  | .lf _ => true
  | .va _ | .top | .bot | .num _ => false
  | .neg a => isSafetyWalk a
  | .conj a b | .disj a b | .biimp a b | .impl a b | .eqn a b =>
      isSafetyWalk a || isSafetyWalk b
  | .fite c a b => isSafetyWalk c || isSafetyWalk a || isSafetyWalk b
  | .exq _ a | .alq _ a => isSafetyWalk a
  | .nxt a => isSafetyWalk a
  | .lx a | .ln a | .lg a | .ly a | .lz a | .lo a | .lh a => isSafetyWalk a
  | .lr a b | .ls a b | .lt a b => isSafetyWalk a || isSafetyWalk b

/-- `IsSafetyLtl.is_safety_ltl`. -/
def is_safety_ltl (f : Fm) : Bool := ! isSafetyWalk f

/-- Specification-side notion for the safety claim: a positive occurrence of
`U` or `F`, tracking polarity through negations (`pol = true` is positive). -/
def posOccUF (pol : Bool) : Fm → Bool
  | .va _ | .top | .bot | .num _ => false
  | .neg a => posOccUF (!pol) a
  | .conj a b | .disj a b | .biimp a b | .impl a b | .eqn a b =>
      posOccUF pol a || posOccUF pol b
  | .fite c a b => posOccUF pol c || posOccUF pol a || posOccUF pol b
  | .exq _ a | .alq _ a => posOccUF pol a
  | .nxt a => posOccUF pol a
  | .lu a b => pol || posOccUF pol a || posOccUF pol b
  | .lf a => pol || posOccUF pol a
  | .lx a | .ln a | .lg a | .ly a | .lz a | .lo a | .lh a => posOccUF pol a
  | .lr a b | .ls a b | .lt a b => posOccUF pol a || posOccUF pol b

/-- Whether the head node is a Boolean/theory atom (for the NNF check). -/
def Fm.isAtom : Fm → Bool
  | .va _ | .top | .bot | .num _ | .eqn _ _ => true
  | _ => false

/-- A formula is in negation normal form when every negation wraps an atom
(a well-typed theory atom contains no LTL operator). -/
def isNnf : Fm → Bool
  | .va _ | .top | .bot | .num _ => true
  | .eqn a b => !a.hasLtl && !b.hasLtl
  | .neg a => a.isAtom && !a.hasLtl
  | .conj a b | .disj a b | .biimp a b | .impl a b => isNnf a && isNnf b
  | .fite c a b => isNnf c && isNnf a && isNnf b
  | .exq _ a | .alq _ a => isNnf a
  | .nxt a => isNnf a
  | .lx a | .ln a | .lf a | .lg a | .ly a | .lz a | .lo a | .lh a => isNnf a
  | .lu a b | .lr a b | .ls a b | .lt a b => isNnf a && isNnf b

/-! ## Elementary-subformula walkers (`ltl_encoder.py`) -/

/-- `FormulaManager.Next`: raises `UnexpectedNextError` when the argument
already contains a `NEXT`. -/
def mkNext (f : Fm) : Except PyErr Fm :=
  if f.hasNext then .error .unexpectedNext else .ok (.nxt f)

/-- `mgr.Or` over a list with at least one element (`Or(x)` is `x` itself,
longer lists disjoin left-to-right; pysmt builds one n-ary node). -/
def bigOr : List Fm → Fm
  | [] => .bot
  | [x] => x
  | x :: xs => xs.foldl (fun acc y => .disj acc y) x

/-- The state of an encoding walker: the elementary map `_el_map` (an
insertion-ordered dict from elementary formula to fresh state variable) and
the environment's shared fresh-symbol counter. -/
structure ElSt where
  el : List (Fm × Sym)
  ctr : Nat
deriving DecidableEq, Repr

/-- Lookup in the elementary map. -/
def elFind (el : List (Fm × Sym)) (k : Fm) : Option Sym :=
  (el.find? (fun kv => kv.1 = k)).map (fun kv => kv.2)

/-- `if formula not in self._el_map: self._el_map[formula] = FreshSymbol(...)`
followed by the lookup: returns the variable bound to `k`, allocating a fresh
one with template `tmpl` when the key is absent. -/
def elAlloc (st : ElSt) (tmpl : String) (k : Fm) : Sym × ElSt :=
  match elFind st.el k with
  | some v => (v, st)
  | none =>
      let v := Sym.fresh tmpl st.ctr
      (v, ⟨st.el ++ [(k, v)], st.ctr + 1⟩)

/-- `LtlEncodingWalker` (`ltl_encoder.py` lines 80-151): computes the sat
value of a formula over the `X`, `U`, `Y`, `S` basis while accumulating the
elementary map.  `el(X f) = el(f) ∪ X f` with `sat(X f)` the fresh variable;
`el(f U g)` adds `X(f U g)` with
`sat(f U g) = sat(g) ∨ (sat(f) ∧ el(X(f U g)))`; `Y`/`S` are the past
mirrors keyed by `Y f` and `Y(f S g)`.  Any other LTL operator raises
`NotImplementedError` (`walk_ltl_unsupported`); all other node kinds are
rebuilt from the children's sat values as in `IdentityDagWalker`. -/
def elwalkI : Fm → ElSt → Except PyErr (Fm × ElSt)
  | .va s, st => .ok (.va s, st)
  | .top, st => .ok (.top, st)
  | .bot, st => .ok (.bot, st)
  | .num n, st => .ok (.num n, st)
  | .neg a, st => do
      let (ra, st) ← elwalkI a st
      .ok (mkNot ra, st)
  | .conj a b, st => do
      let (ra, st) ← elwalkI a st
      let (rb, st) ← elwalkI b st
      .ok (.conj ra rb, st)
  | .disj a b, st => do
      let (ra, st) ← elwalkI a st
      let (rb, st) ← elwalkI b st
      .ok (.disj ra rb, st)
  | .biimp a b, st => do
      let (ra, st) ← elwalkI a st
      let (rb, st) ← elwalkI b st
      .ok (.biimp ra rb, st)
  | .impl a b, st => do
      let (ra, st) ← elwalkI a st
      let (rb, st) ← elwalkI b st
      .ok (.impl ra rb, st)
  | .fite c a b, st => do
      let (rc, st) ← elwalkI c st
      let (ra, st) ← elwalkI a st
      let (rb, st) ← elwalkI b st
      .ok (.fite rc ra rb, st)
  | .eqn a b, st => do
      let (ra, st) ← elwalkI a st
      let (rb, st) ← elwalkI b st
      .ok (.eqn ra rb, st)
  | .exq v a, st => do
      let (ra, st) ← elwalkI a st
      .ok (.exq v ra, st)
  | .alq v a, st => do
      let (ra, st) ← elwalkI a st
      .ok (.alq v ra, st)
  | .nxt a, st => do
      let (ra, st) ← elwalkI a st
      let r ← mkNext ra
      .ok (r, st)
  | .lx a, st => do
      let (_, st) ← elwalkI a st
      let (v, st) := elAlloc st "el_x_%d" (.lx a)
      .ok (.va v, st)
  | .lu a b, st => do
      let (ra, st) ← elwalkI a st
      let (rb, st) ← elwalkI b st
      let (v, st) := elAlloc st "el_u_%d" (.lx (.lu a b))
      .ok (.disj rb (.conj ra (.va v)), st)
  | .ly a, st => do
      let (_, st) ← elwalkI a st
      let (v, st) := elAlloc st "el_y_%d" (.ly a)
      .ok (.va v, st)
  | .ls a b, st => do
      let (ra, st) ← elwalkI a st
      let (rb, st) ← elwalkI b st
      let (v, st) := elAlloc st "el_s_%d" (.ly (.ls a b))
      .ok (.disj rb (.conj ra (.va v)), st)
  | .lf _, _ | .lg _, _ | .lr _ _, _ | .lz _, _ | .lo _, _ | .lh _, _
  | .lt _ _, _ | .ln _, _ => .error .notImplemented

/-- `LtlfEncodingWalker` (`ltl_encoder.py` lines 463-523): extends
`LtlEncodingWalker` (inheriting the `X`, `U`, `Y`, `S` cases) with `N`, `Z`
keyed by themselves, `R` keyed by `N(f R g)` with
`sat(f R g) = sat(g) ∧ (sat(f) ∨ el(N(f R g)))`, and raises
`NotImplementedError` on `F`, `G`, `O`, `H`.  The `T` handler
(`walk_ltl_t`) computes `z_formula = self.mgr.Z(formula)` but then
dereferences the never-assigned name `y_formula`, so Python raises
`NameError` after walking the children. -/
def elwalkF : Fm → ElSt → Except PyErr (Fm × ElSt)
  | .va s, st => .ok (.va s, st)
  | .top, st => .ok (.top, st)
  | .bot, st => .ok (.bot, st)
  | .num n, st => .ok (.num n, st)
  | .neg a, st => do
      let (ra, st) ← elwalkF a st
      .ok (mkNot ra, st)
  | .conj a b, st => do
      let (ra, st) ← elwalkF a st
      let (rb, st) ← elwalkF b st
      .ok (.conj ra rb, st)
  | .disj a b, st => do
      let (ra, st) ← elwalkF a st
      let (rb, st) ← elwalkF b st
      .ok (.disj ra rb, st)
  | .biimp a b, st => do
      let (ra, st) ← elwalkF a st
      let (rb, st) ← elwalkF b st
      .ok (.biimp ra rb, st)
  | .impl a b, st => do
      let (ra, st) ← elwalkF a st
      let (rb, st) ← elwalkF b st
      .ok (.impl ra rb, st)
  | .fite c a b, st => do
      let (rc, st) ← elwalkF c st
      let (ra, st) ← elwalkF a st
      let (rb, st) ← elwalkF b st
      .ok (.fite rc ra rb, st)
  | .eqn a b, st => do
      let (ra, st) ← elwalkF a st
      let (rb, st) ← elwalkF b st
      .ok (.eqn ra rb, st)
  | .exq v a, st => do
      let (ra, st) ← elwalkF a st
      .ok (.exq v ra, st)
  | .alq v a, st => do
      let (ra, st) ← elwalkF a st
      .ok (.alq v ra, st)
  | .nxt a, st => do
      let (ra, st) ← elwalkF a st
      let r ← mkNext ra
      .ok (r, st)
  | .lx a, st => do
      let (_, st) ← elwalkF a st
      let (v, st) := elAlloc st "el_x_%d" (.lx a)
      .ok (.va v, st)
  | .lu a b, st => do
      let (ra, st) ← elwalkF a st
      let (rb, st) ← elwalkF b st
      let (v, st) := elAlloc st "el_u_%d" (.lx (.lu a b))
      .ok (.disj rb (.conj ra (.va v)), st)
  | .ly a, st => do
      let (_, st) ← elwalkF a st
      let (v, st) := elAlloc st "el_y_%d" (.ly a)
      .ok (.va v, st)
  | .ls a b, st => do
      let (ra, st) ← elwalkF a st
      let (rb, st) ← elwalkF b st
      let (v, st) := elAlloc st "el_s_%d" (.ly (.ls a b))
      .ok (.disj rb (.conj ra (.va v)), st)
  | .ln a, st => do
      let (_, st) ← elwalkF a st
      let (v, st) := elAlloc st "el_n_%d" (.ln a)
      .ok (.va v, st)
  | .lz a, st => do
      let (_, st) ← elwalkF a st
      let (v, st) := elAlloc st "el_z_%d" (.lz a)
      .ok (.va v, st)
  | .lr a b, st => do
      let (ra, st) ← elwalkF a st
      let (rb, st) ← elwalkF b st
      let (v, st) := elAlloc st "el_r_%d" (.ln (.lr a b))
      .ok (.conj rb (.disj ra (.va v)), st)
  | .lt a b, st => do
      let (_, st) ← elwalkF a st
      let (_, st) ← elwalkF b st
      .error .nameError
  | .lf _, _ | .lg _, _ | .lo _, _ | .lh _, _ => .error .notImplemented

/-! ## The encoders (`ltl_encoder.py`) -/

/-- `make_single_justice` (`ltl_encoder.py` lines 165-202): one fresh state
variable per justice (template `J_%d`, counter shared with the other
fresh-symbol sites), each initialised by `Iff(J_i, FALSE)`;
`accept = And(all J_i)`; for each justice a transition
`Iff(Next(J_i), Ite(accept, j_i, Or(j_i, J_i)))` (`mgr.Next` on a fresh
symbol cannot raise).  Returns `(accept, stvars, init, trans)` and the
advanced counter. -/
def make_single_justice (justice : List Fm) (ctr : Nat) :
    Fm × List Sym × List Fm × List Fm × Nat :=
  let stvars := (List.range justice.length).map (fun i => Sym.fresh "J_%d" (ctr + i))
  let init := stvars.map (fun s => Fm.biimp (.va s) .bot)
  let accept := Fm.bigAnd (stvars.map Fm.va)
  let trans := (justice.zip stvars).map
    (fun js => Fm.biimp (.nxt (.va js.2)) (.fite accept js.1 (.disj js.1 (.va js.2))))
  (accept, stvars, init, trans, ctr + justice.length)

/-- `_copy_model` (`ltl_encoder.py` lines 153-163): a fresh model receives
the state variables, input variables, trans constraints and init constraints
of the input, re-running the insertion checks; properties are not copied. -/
def copyModel (m : Model) : Except PyErr Model := do
  let c ← m.stateVars.foldlM (fun acc s => acc.add_state_var s) Model.empty
  let c ← m.inputVars.foldlM (fun acc s => acc.add_input_var s) c
  let c ← m.trans.foldlM (fun acc f => acc.add_trans f) c
  let c ← m.init.foldlM (fun acc f => acc.add_init f) c
  pure c

/-- One iteration of the elementary loop of `ltl_encode` (`ltl_encoder.py`
lines 226-239): add the tableau state variable, compute the sat value of the
elementary formula's argument, and add the transition constraint — a
biconditional `Iff(v, Next(sat))` for a future elementary formula (recording
the justice `Or(Not(sat), sat(arg.arg(1)))` when the argument is an Until)
or `Iff(Next(v), sat)` for a past one.  The walker object is shared, so its
state threads through the accumulator. -/
def ltlStep (acc : Model × List Fm × ElSt) (kv : Fm × Sym) :
    Except PyErr (Model × List Fm × ElSt) := do
  let (mc, justice, st) := acc
  let (k, v) := kv
  let mc ← mc.add_state_var v
  let (sat, st) ← elwalkI k.argZeroD st
  if k.isFutureLtl then do
    let nx ← mkNext sat
    let mc ← mc.add_trans (.biimp (.va v) nx)
    if k.argZeroD.isU then do
      let (satb, st) ← elwalkI k.argZeroD.argOneD st
      pure (mc, justice ++ [Fm.disj (mkNot sat) satb], st)
    else pure (mc, justice, st)
  else do
    let mc ← mc.add_trans (.biimp (.nxt (.va v)) sat)
    pure (mc, justice, st)

/-- `ltl_encode` (`ltl_encoder.py` lines 204-252): rewrite `Not φ` to the
`X`, `U`, `Y`, `S` basis, collect the elementary map, copy the model, add a
tableau state variable and a transition per elementary entry (future:
`Iff(v, Next(sat(child)))`, collecting the justice
`Or(Not(sat), sat(child.arg(1)))` when the child is an Until; past:
`Iff(Next(v), sat(child))`), add the init constraint `sat(¬φ)`, flatten the
justice list through `make_single_justice`, and attach the live property
`Not(accept)`.  The walker object is shared, so its state is threaded
through every `get_sat` call. -/
def ltl_encode (m : Model) (φ : Fm) : Except PyErr Model := do
  let formula := ltlRewrite (mkNot φ)
  let (_, st0) ← elwalkI formula ⟨[], 0⟩
  let mc ← copyModel m
  let (mc, justice, st1) ← st0.el.foldlM ltlStep (mc, ([] : List Fm), st0)
  let (satRoot, st2) ← elwalkI formula st1
  let mc ← mc.add_init satRoot
  let msj := make_single_justice justice st2.ctr
  let accept := msj.1
  let stvars := msj.2.1
  let init := msj.2.2.1
  let trans := msj.2.2.2.1
  let mc ← stvars.foldlM (fun acc s => acc.add_state_var s) mc
  let mc ← init.foldlM (fun acc f => acc.add_init f) mc
  let mc ← trans.foldlM (fun acc f => acc.add_trans f) mc
  let (mc, _) ← mc.add_live_property (mkNot accept)
  pure mc

/-- The normalised negated formula fed to the LTLf walker by `ltlf_encode`:
`NNFIzer.convert(LtlRewriter.rewrite(Not φ))`. -/
def ltlfNnf (φ : Fm) : Fm := nnfConvert (ltlRewrite (mkNot φ))

/-- One iteration of the elementary loop of `ltlf_encode` (`ltl_encoder.py`
lines 550-564): add the tableau state variable; for a future elementary
formula add the implication `Implies(v, Next(sat))` — the strong proof
obligation — recording `v` in `x_vars` when the elementary formula is an
`LTL_X` node; for a past one add `Iff(Next(v), sat)`. -/
def ltlfStep (acc : Model × List Sym × ElSt) (kv : Fm × Sym) :
    Except PyErr (Model × List Sym × ElSt) := do
  let (mc, xv, st) := acc
  let (k, v) := kv
  let mc ← mc.add_state_var v
  let (sat, st) ← elwalkF k.argZeroD st
  if k.isFutureLtl then do
    let nx ← mkNext sat
    let mc ← mc.add_trans (.impl (.va v) nx)
    if k.isLX then pure (mc, xv ++ [v], st)
    else pure (mc, xv, st)
  else do
    let mc ← mc.add_trans (.biimp (.nxt (.va v)) sat)
    pure (mc, xv, st)

/-- `ltlf_encode` (`ltl_encoder.py` lines 525-575): rewrite and NNF-ize
`Not φ`, collect the elementary map, copy the model, and per elementary
entry add the state variable plus (future) the implication
`Implies(v, Next(sat(child)))` — collecting `v` in `x_vars` when the entry
is keyed by an `LTL_X` formula — or (past) `Iff(Next(v), sat(child))`.
Then add the init `sat(nnf(¬φ))` and attach as invariant property the left
fold of `Or` over `x_vars` starting from `FALSE`. -/
def ltlf_encode (m : Model) (φ : Fm) : Except PyErr Model := do
  let formula := ltlfNnf φ
  let (_, st0) ← elwalkF formula ⟨[], 0⟩
  let mc ← copyModel m
  let (mc, xvars, st1) ← st0.el.foldlM ltlfStep (mc, ([] : List Sym), st0)
  let (satRoot, _) ← elwalkF formula st1
  let mc ← mc.add_init satRoot
  let invar := xvars.foldl (fun acc v => Fm.disj acc (.va v)) Fm.bot
  let (mc, _) ← mc.add_invar_property invar
  pure mc

/-! ## Circuit encoder (`ltl_encoder.py` lines 254-461) -/

/-- The state of `LtlCircuitEncodingWalker`: the labelled subformula list and
the fresh-symbol counter. -/
structure CircSt where
  subf : List (Sym × Fm)
  ctr : Nat
deriving DecidableEq, Repr

/-- `LtlCircuitEncodingWalker.store_subformula`: allocate a label variable
(template `LTL.Z.%d`), record the pair, and return the label. -/
def circStore (f : Fm) (st : CircSt) : Fm × CircSt :=
  let z := Sym.fresh "LTL.Z.%d" st.ctr
  (.va z, ⟨st.subf ++ [(z, f)], st.ctr + 1⟩)

/-- The walk of `LtlCircuitEncodingWalker`: every `And`/`Or`/LTL node is
rebuilt with its children's labels and stored (`store_subformula`); other
nodes are rebuilt as in `IdentityDagWalker` (`Not` through `mgr.Not`; the
`NEXT` rebuild cannot hit the nested-next check on encoder inputs). -/
def circWalk : Fm → CircSt → Fm × CircSt
  | .va s, st => (.va s, st)
  | .top, st => (.top, st)
  | .bot, st => (.bot, st)
  | .num n, st => (.num n, st)
  | .neg a, st =>
      let (ra, st) := circWalk a st
      (mkNot ra, st)
  | .conj a b, st =>
      let (ra, st) := circWalk a st
      let (rb, st) := circWalk b st
      circStore (.conj ra rb) st
  | .disj a b, st =>
      let (ra, st) := circWalk a st
      let (rb, st) := circWalk b st
      circStore (.disj ra rb) st
  | .biimp a b, st =>
      let (ra, st) := circWalk a st
      let (rb, st) := circWalk b st
      (.biimp ra rb, st)
  | .impl a b, st =>
      let (ra, st) := circWalk a st
      let (rb, st) := circWalk b st
      (.impl ra rb, st)
  | .fite c a b, st =>
      let (rc, st) := circWalk c st
      let (ra, st) := circWalk a st
      let (rb, st) := circWalk b st
      (.fite rc ra rb, st)
  | .eqn a b, st =>
      let (ra, st) := circWalk a st
      let (rb, st) := circWalk b st
      (.eqn ra rb, st)
  | .exq v a, st =>
      let (ra, st) := circWalk a st
      (.exq v ra, st)
  | .alq v a, st =>
      let (ra, st) := circWalk a st
      (.alq v ra, st)
  | .nxt a, st =>
      let (ra, st) := circWalk a st
      (.nxt ra, st)
  | .lx a, st =>
      let (ra, st) := circWalk a st
      circStore (.lx ra) st
  | .ln a, st =>
      let (ra, st) := circWalk a st
      circStore (.ln ra) st
  | .lf a, st =>
      let (ra, st) := circWalk a st
      circStore (.lf ra) st
  | .lg a, st =>
      let (ra, st) := circWalk a st
      circStore (.lg ra) st
  | .ly a, st =>
      let (ra, st) := circWalk a st
      circStore (.ly ra) st
  | .lz a, st =>
      let (ra, st) := circWalk a st
      circStore (.lz ra) st
  | .lo a, st =>
      let (ra, st) := circWalk a st
      circStore (.lo ra) st
  | .lh a, st =>
      let (ra, st) := circWalk a st
      circStore (.lh ra) st
  | .lu a b, st =>
      let (ra, st) := circWalk a st
      let (rb, st) := circWalk b st
      circStore (.lu ra rb) st
  | .lr a b, st =>
      let (ra, st) := circWalk a st
      let (rb, st) := circWalk b st
      circStore (.lr ra rb) st
  | .ls a b, st =>
      let (ra, st) := circWalk a st
      let (rb, st) := circWalk b st
      circStore (.ls ra rb) st
  | .lt a b, st =>
      let (ra, st) := circWalk a st
      let (rb, st) := circWalk b st
      circStore (.lt ra rb) st

/-- `LtlCircuitEncodingWalker.get_subformulae`: run the walk; if no
subformula was stored, store the degenerate pair for `And(formula, TRUE)` so
that at least one monitor exists.  Returns the pairs and the advanced
counter. -/
def get_subformulae (f : Fm) : List (Sym × Fm) × Nat :=
  let (_, st) := circWalk f ⟨[], 0⟩
  if st.subf.isEmpty then
    let (_, st2) := circStore (.conj f .top) st
    (st2.subf, st2.ctr)
  else (st.subf, st.ctr)

/-- `LtlCircuitEncodingWalker.make_monitor` (`ltl_encoder.py` lines
291-395): builds the local machine
`(stvars, init, trans, accept, failed, pending)` for a labelled subformula;
a node kind without a branch (in particular weak next `LTL_N`) raises
`NotImplementedError`.  The fresh-symbol counter is threaded. -/
def make_monitor (isInit activator : Fm) (formula : Fm) (ctr : Nat) :
    Except PyErr (List Sym × List Fm × List Fm × Fm × Fm × Fm × Nat) :=
  match formula with
  | .conj a b =>
      .ok ([], [], [], .top, .conj activator (mkNot (.conj a b)), .bot, ctr)
  | .disj a b =>
      .ok ([], [], [], .top, .conj activator (mkNot (.disj a b)), .bot, ctr)
  | .lx a =>
      let yz := Sym.fresh "LTL.X.YZ.%d" ctr
      .ok ([yz], [mkNot (.va yz)], [.biimp (.nxt (.va yz)) activator],
        .top, .conj (.va yz) (mkNot a), activator, ctr + 1)
  | .lg a =>
      let yp := Sym.fresh "LTL.G.YP.%d" ctr
      let pending := Fm.disj (.va yp) activator
      .ok ([yp], [mkNot (.va yp)], [.biimp (.nxt (.va yp)) pending],
        .top, .conj pending (mkNot a), pending, ctr + 1)
  | .lf a =>
      let yp := Sym.fresh "LTL.F.YP.%d" ctr
      let pending := Fm.conj (.disj activator (.va yp)) (mkNot a)
      .ok ([yp], [mkNot (.va yp)], [.biimp (.nxt (.va yp)) pending],
        mkNot pending, .bot, pending, ctr + 1)
  | .lu a b =>
      let yp := Sym.fresh "LTL.U.YP.%d" ctr
      let pending := Fm.conj (.disj activator (.va yp)) (mkNot b)
      .ok ([yp], [mkNot (.va yp)], [.biimp (.nxt (.va yp)) pending],
        mkNot pending, .conj pending (mkNot a), pending, ctr + 1)
  | .lr a b =>
      let yp := Sym.fresh "LTL.R.YP.%d" ctr
      let pending := Fm.conj (.disj activator (.va yp)) (mkNot a)
      .ok ([yp], [mkNot (.va yp)], [.biimp (.nxt (.va yp)) pending],
        mkNot pending, .conj pending (mkNot b), pending, ctr + 1)
  | .ly a =>
      let yarg := Sym.fresh "LTL.Y.arg.%d" ctr
      .ok ([yarg], [mkNot (.va yarg)], [.biimp (.nxt (.va yarg)) a],
        .top, .conj activator (mkNot (.va yarg)), .bot, ctr + 1)
  | .lz a =>
      let zarg := Sym.fresh "LTL.Z.arg.%d" ctr
      .ok ([zarg], [.va zarg], [.biimp (.nxt (.va zarg)) a],
        .top, .conj activator (mkNot (.va zarg)), .bot, ctr + 1)
  | .lh a =>
      let ynt := Sym.fresh "LTL.H.ynt.%d" ctr
      let nt := Fm.disj (.va ynt) (mkNot a)
      .ok ([ynt], [mkNot (.va ynt)], [.biimp (.nxt (.va ynt)) nt],
        .top, .conj activator nt, .bot, ctr + 1)
  | .lo a =>
      let yt := Sym.fresh "LTL.O.yt.%d" ctr
      let t := Fm.disj (.va yt) a
      .ok ([yt], [mkNot (.va yt)], [.biimp (.nxt (.va yt)) t],
        .top, .conj activator (mkNot t), .bot, ctr + 1)
  | .ls a b =>
      let yt := Sym.fresh "LTL.S.yt.%d" ctr
      let t := Fm.disj b (.conj (.va yt) a)
      .ok ([yt], [mkNot (.va yt)], [.biimp (.nxt (.va yt)) t],
        .top, .conj activator (mkNot t), .bot, ctr + 1)
  | .lt a b =>
      let ynt := Sym.fresh "LTL.T.ynt.%d" ctr
      let nt := Fm.disj (mkNot b) (.conj (.va ynt) (mkNot a))
      .ok ([ynt], [mkNot (.va ynt)], [.biimp (.nxt (.va ynt)) nt],
        .top, .conj activator nt, .bot, ctr + 1)
  | _ => .error .notImplemented

/-- `ltl_circuit_encode` (`ltl_encoder.py` lines 397-461): copy the model,
NNF-ize `Not φ`, label the subformulae, replace the outermost label with the
fresh `is_init` variable (true initially, false afterwards), create a
monitor per labelled pair, latch the disjunction of the monitors' `failed`
flags in `has_failed`, flatten the justices
`accept_i ∧ ¬has_failed` and attach the live property `Not(accept)`. -/
def ltl_circuit_encode (m : Model) (φ : Fm) : Except PyErr Model := do
  let mc ← copyModel m
  let formula := nnfConvert (mkNot φ)
  let (subf0, ctr0) := get_subformulae formula
  let isInit := Sym.fresh "is_init.%d" ctr0
  let ctr1 := ctr0 + 1
  let subf := subf0.dropLast ++ (subf0.getLast?.map (fun p => (isInit, p.2))).toList
  let mc ← subf.foldlM (fun acc p => acc.add_state_var p.1) mc
  let mc ← mc.add_init (.va isInit)
  let mc ← mc.add_trans (.biimp (.nxt (.va isInit)) .bot)
  let (mc, accepts, faileds, _, ctr2) ← subf.foldlM
    (fun acc p => do
      let (mc, accs, fls, pds, ctr) := acc
      let mon ← make_monitor (.va isInit) (.va p.1) p.2 ctr
      let stvars := mon.1
      let init := mon.2.1
      let trans := mon.2.2.1
      let accept := mon.2.2.2.1
      let failed := mon.2.2.2.2.1
      let ctr := mon.2.2.2.2.2.2
      let mc ← stvars.foldlM (fun a s => a.add_state_var s) mc
      let mc ← init.foldlM (fun a f => a.add_init f) mc
      let mc ← trans.foldlM (fun a f => a.add_trans f) mc
      pure (mc, accs ++ [accept], fls ++ [failed], pds ++ [mon.2.2.2.2.2.1], ctr))
    (mc, ([] : List Fm), ([] : List Fm), ([] : List Fm), ctr1)
  let hasFailed := Sym.fresh "has_failed.%d" ctr2
  let ctr3 := ctr2 + 1
  let mc ← mc.add_state_var hasFailed
  let mc ← mc.add_init (mkNot (.va hasFailed))
  let mc ← mc.add_trans (.biimp (.nxt (.va hasFailed)) (bigOr (faileds ++ [.va hasFailed])))
  let msj := make_single_justice
    (accepts.map (fun f => Fm.conj f (mkNot (.va hasFailed)))) ctr3
  let accept := msj.1
  let stvars := msj.2.1
  let init := msj.2.2.1
  let trans := msj.2.2.2.1
  let mc ← stvars.foldlM (fun acc s => acc.add_state_var s) mc
  let mc ← init.foldlM (fun acc f => acc.add_init f) mc
  let mc ← trans.foldlM (fun acc f => acc.add_trans f) mc
  let (mc, _) ← mc.add_live_property (mkNot accept)
  pure mc

/-! ## Inversion lemmas for the model operations -/

namespace Model

lemma add_state_var_ok {m : Model} {s : Sym} {m' : Model}
    (h : m.add_state_var s = .ok m') :
    m' = { m with stateVars := m.stateVars ++ [s] } := by
  unfold add_state_var at h
  split at h
  · exact absurd h (by simp)
  · simpa using h.symm

lemma add_input_var_ok {m : Model} {s : Sym} {m' : Model}
    (h : m.add_input_var s = .ok m') :
    m' = { m with inputVars := m.inputVars ++ [s] } := by
  unfold add_input_var at h
  split at h
  · exact absurd h (by simp)
  · simpa using h.symm

lemma add_init_ok {m : Model} {f : Fm} {m' : Model}
    (h : m.add_init f = .ok m') :
    m' = { m with init := m.init ++ [f] } := by
  unfold add_init at h
  split at h
  · exact absurd h (by simp)
  · split at h
    · exact absurd h (by simp)
    · split at h
      · exact absurd h (by simp)
      · split at h
        · exact absurd h (by simp)
        · simpa using h.symm

lemma add_trans_ok {m : Model} {f : Fm} {m' : Model}
    (h : m.add_trans f = .ok m') :
    m' = { m with trans := m.trans ++ [f] } := by
  unfold add_trans at h
  split at h
  · exact absurd h (by simp)
  · split at h
    · exact absurd h (by simp)
    · split at h
      · exact absurd h (by simp)
      · simpa using h.symm

lemma addPropertyCore_ok {m : Model} {pt : PropKind} {f : Fm} {j : Nat}
    {m' : Model} {i : Nat} (h : addPropertyCore m pt f j = .ok (m', i)) :
    i = j ∧ m' = { m with props := m.props ++ [(j, pt, f)] } := by
  unfold addPropertyCore at h
  split at h
  · exact absurd h (by simp)
  · split at h
    · exact absurd h (by simp)
    · split at h
      · exact absurd h (by simp)
      · simp only [Except.ok.injEq, Prod.mk.injEq] at h
        exact ⟨h.2.symm, h.1.symm⟩

lemma add_property_ok {m : Model} {pt : PropKind} {f : Fm} {idx : Option Nat}
    {m' : Model} {i : Nat} (h : m.add_property pt f idx = .ok (m', i)) :
    m'.props = m.props ++ [(i, pt, f)] ∧ m'.stateVars = m.stateVars ∧
    m'.inputVars = m.inputVars ∧ m'.init = m.init ∧ m'.trans = m.trans := by
  cases idx with
  | some j =>
      obtain ⟨hi, hm⟩ := addPropertyCore_ok h
      subst hi hm
      simp
  | none =>
      obtain ⟨hi, hm⟩ := addPropertyCore_ok h
      subst hi hm
      simp

end Model

/-! ## Inversion lemmas for the construction folds -/

lemma foldlM_add_state_var_ok (L : List Sym) :
    ∀ (m m' : Model),
      L.foldlM (fun acc s => acc.add_state_var s) m = .ok m' →
      m' = { m with stateVars := m.stateVars ++ L } := by
  induction L with
  | nil =>
      intro m m' h
      simp only [List.foldlM_nil, pure, Except.pure, Except.ok.injEq] at h
      simp [← h]
  | cons s L ih =>
      intro m m' h
      simp only [List.foldlM_cons] at h
      cases h1 : m.add_state_var s with
      | error e => rw [h1] at h; exact absurd h (by simp [bind, Except.bind])
      | ok m1 =>
          rw [h1] at h
          simp only [bind, Except.bind] at h
          have := ih m1 m' h
          rw [Model.add_state_var_ok h1] at this
          simp [this]

lemma foldlM_add_input_var_ok (L : List Sym) :
    ∀ (m m' : Model),
      L.foldlM (fun acc s => acc.add_input_var s) m = .ok m' →
      m' = { m with inputVars := m.inputVars ++ L } := by
  induction L with
  | nil =>
      intro m m' h
      simp only [List.foldlM_nil, pure, Except.pure, Except.ok.injEq] at h
      simp [← h]
  | cons s L ih =>
      intro m m' h
      simp only [List.foldlM_cons] at h
      cases h1 : m.add_input_var s with
      | error e => rw [h1] at h; exact absurd h (by simp [bind, Except.bind])
      | ok m1 =>
          rw [h1] at h
          simp only [bind, Except.bind] at h
          have := ih m1 m' h
          rw [Model.add_input_var_ok h1] at this
          simp [this]

lemma foldlM_add_init_ok (L : List Fm) :
    ∀ (m m' : Model),
      L.foldlM (fun acc f => acc.add_init f) m = .ok m' →
      m' = { m with init := m.init ++ L } := by
  induction L with
  | nil =>
      intro m m' h
      simp only [List.foldlM_nil, pure, Except.pure, Except.ok.injEq] at h
      simp [← h]
  | cons f L ih =>
      intro m m' h
      simp only [List.foldlM_cons] at h
      cases h1 : m.add_init f with
      | error e => rw [h1] at h; exact absurd h (by simp [bind, Except.bind])
      | ok m1 =>
          rw [h1] at h
          simp only [bind, Except.bind] at h
          have := ih m1 m' h
          rw [Model.add_init_ok h1] at this
          simp [this]

lemma foldlM_add_trans_ok (L : List Fm) :
    ∀ (m m' : Model),
      L.foldlM (fun acc f => acc.add_trans f) m = .ok m' →
      m' = { m with trans := m.trans ++ L } := by
  induction L with
  | nil =>
      intro m m' h
      simp only [List.foldlM_nil, pure, Except.pure, Except.ok.injEq] at h
      simp [← h]
  | cons f L ih =>
      intro m m' h
      simp only [List.foldlM_cons] at h
      cases h1 : m.add_trans f with
      | error e => rw [h1] at h; exact absurd h (by simp [bind, Except.bind])
      | ok m1 =>
          rw [h1] at h
          simp only [bind, Except.bind] at h
          have := ih m1 m' h
          rw [Model.add_trans_ok h1] at this
          simp [this]

/-- `_copy_model` inversion: a successful copy reproduces the variables and
constraints of the input and carries no properties. -/
lemma copyModel_ok {M c : Model} (h : copyModel M = .ok c) :
    c = ⟨M.stateVars, M.inputVars, M.init, M.trans, [], 0⟩ := by
  unfold copyModel at h
  cases h1 : M.stateVars.foldlM (fun acc s => acc.add_state_var s) Model.empty with
  | error e => rw [h1] at h; exact absurd h (by simp [bind, Except.bind])
  | ok c1 =>
      rw [h1] at h
      simp only [bind, Except.bind] at h
      cases h2 : M.inputVars.foldlM (fun acc s => acc.add_input_var s) c1 with
      | error e => rw [h2] at h; exact absurd h (by simp)
      | ok c2 =>
          rw [h2] at h
          simp only at h
          cases h3 : M.trans.foldlM (fun acc f => acc.add_trans f) c2 with
          | error e => rw [h3] at h; exact absurd h (by simp)
          | ok c3 =>
              rw [h3] at h
              simp only at h
              cases h4 : M.init.foldlM (fun acc f => acc.add_init f) c3 with
              | error e => rw [h4] at h; exact absurd h (by simp)
              | ok c4 =>
                  rw [h4] at h
                  simp only [pure, Except.pure, Except.ok.injEq] at h
                  subst h
                  have e1 := foldlM_add_state_var_ok _ _ _ h1
                  have e2 := foldlM_add_input_var_ok _ _ _ h2
                  have e3 := foldlM_add_trans_ok _ _ _ h3
                  have e4 := foldlM_add_init_ok _ _ _ h4
                  subst e1 e2 e3 e4
                  rfl

/-! ## Safety-LTL walker versus positive occurrences -/

lemma isSafetyWalk_of_hasLtl_false (f : Fm) (h : f.hasLtl = false) :
    isSafetyWalk f = false := by
  induction f <;> simp_all [Fm.hasLtl, isSafetyWalk]

lemma posOccUF_of_hasLtl_false' (f : Fm) :
    ∀ pol : Bool, f.hasLtl = false → posOccUF pol f = false := by
  induction f with
  | va s => intro pol h; rfl
  | top => intro pol h; rfl
  | bot => intro pol h; rfl
  | num n => intro pol h; rfl
  | neg a ih => intro pol h; exact ih (!pol) h
  | conj a b iha ihb =>
      intro pol h
      simp only [Fm.hasLtl, Bool.or_eq_false_iff] at h
      simp only [posOccUF, iha pol h.1, ihb pol h.2, Bool.or_self]
  | disj a b iha ihb =>
      intro pol h
      simp only [Fm.hasLtl, Bool.or_eq_false_iff] at h
      simp only [posOccUF, iha pol h.1, ihb pol h.2, Bool.or_self]
  | biimp a b iha ihb =>
      intro pol h
      simp only [Fm.hasLtl, Bool.or_eq_false_iff] at h
      simp only [posOccUF, iha pol h.1, ihb pol h.2, Bool.or_self]
  | impl a b iha ihb =>
      intro pol h
      simp only [Fm.hasLtl, Bool.or_eq_false_iff] at h
      simp only [posOccUF, iha pol h.1, ihb pol h.2, Bool.or_self]
  | eqn a b iha ihb =>
      intro pol h
      simp only [Fm.hasLtl, Bool.or_eq_false_iff] at h
      simp only [posOccUF, iha pol h.1, ihb pol h.2, Bool.or_self]
  | fite c a b ihc iha ihb =>
      intro pol h
      simp only [Fm.hasLtl, Bool.or_eq_false_iff] at h
      simp only [posOccUF, ihc pol h.1.1, iha pol h.1.2, ihb pol h.2,
        Bool.or_self]
  | exq v a ih => intro pol h; exact ih pol h
  | alq v a ih => intro pol h; exact ih pol h
  | nxt a ih => intro pol h; exact ih pol h
  | lx a ih => intro pol h; simp [Fm.hasLtl] at h
  | ln a ih => intro pol h; simp [Fm.hasLtl] at h
  | lf a ih => intro pol h; simp [Fm.hasLtl] at h
  | lg a ih => intro pol h; simp [Fm.hasLtl] at h
  | ly a ih => intro pol h; simp [Fm.hasLtl] at h
  | lz a ih => intro pol h; simp [Fm.hasLtl] at h
  | lo a ih => intro pol h; simp [Fm.hasLtl] at h
  | lh a ih => intro pol h; simp [Fm.hasLtl] at h
  | lu a b iha ihb => intro pol h; simp [Fm.hasLtl] at h
  | lr a b iha ihb => intro pol h; simp [Fm.hasLtl] at h
  | ls a b iha ihb => intro pol h; simp [Fm.hasLtl] at h
  | lt a b iha ihb => intro pol h; simp [Fm.hasLtl] at h

lemma posOccUF_of_hasLtl_false (pol : Bool) (f : Fm) (h : f.hasLtl = false) :
    posOccUF pol f = false := posOccUF_of_hasLtl_false' f pol h

lemma isSafetyWalk_eq_posOccUF (f : Fm) (h : isNnf f = true) :
    isSafetyWalk f = posOccUF true f := by
  induction f with
  | va s => rfl
  | top => rfl
  | bot => rfl
  | num n => rfl
  | eqn a b =>
      simp only [isNnf, Bool.and_eq_true, Bool.not_eq_true'] at h
      simp [isSafetyWalk, posOccUF, isSafetyWalk_of_hasLtl_false _ h.1,
        isSafetyWalk_of_hasLtl_false _ h.2, posOccUF_of_hasLtl_false _ _ h.1,
        posOccUF_of_hasLtl_false _ _ h.2]
  | neg a ih =>
      simp only [isNnf, Bool.and_eq_true, Bool.not_eq_true'] at h
      simp [isSafetyWalk, posOccUF, isSafetyWalk_of_hasLtl_false _ h.2,
        posOccUF_of_hasLtl_false _ _ h.2]
  | conj a b iha ihb =>
      simp only [isNnf, Bool.and_eq_true] at h
      simp [isSafetyWalk, posOccUF, iha h.1, ihb h.2]
  | disj a b iha ihb =>
      simp only [isNnf, Bool.and_eq_true] at h
      simp [isSafetyWalk, posOccUF, iha h.1, ihb h.2]
  | biimp a b iha ihb =>
      simp only [isNnf, Bool.and_eq_true] at h
      simp [isSafetyWalk, posOccUF, iha h.1, ihb h.2]
  | impl a b iha ihb =>
      simp only [isNnf, Bool.and_eq_true] at h
      simp [isSafetyWalk, posOccUF, iha h.1, ihb h.2]
  | fite c a b ihc iha ihb =>
      simp only [isNnf, Bool.and_eq_true] at h
      simp [isSafetyWalk, posOccUF, ihc h.1.1, iha h.1.2, ihb h.2]
  | exq v a ih => simp_all [isNnf, isSafetyWalk, posOccUF]
  | alq v a ih => simp_all [isNnf, isSafetyWalk, posOccUF]
  | nxt a ih => simp_all [isNnf, isSafetyWalk, posOccUF]
  | lx a ih => simp_all [isNnf, isSafetyWalk, posOccUF]
  | ln a ih => simp_all [isNnf, isSafetyWalk, posOccUF]
  | lf a ih => simp [isSafetyWalk, posOccUF]
  | lg a ih => simp_all [isNnf, isSafetyWalk, posOccUF]
  | lu a b iha ihb => simp [isSafetyWalk, posOccUF]
  | lr a b iha ihb =>
      simp only [isNnf, Bool.and_eq_true] at h
      simp [isSafetyWalk, posOccUF, iha h.1, ihb h.2]
  | ly a ih => simp_all [isNnf, isSafetyWalk, posOccUF]
  | lz a ih => simp_all [isNnf, isSafetyWalk, posOccUF]
  | lo a ih => simp_all [isNnf, isSafetyWalk, posOccUF]
  | lh a ih => simp_all [isNnf, isSafetyWalk, posOccUF]
  | ls a b iha ihb =>
      simp only [isNnf, Bool.and_eq_true] at h
      simp [isSafetyWalk, posOccUF, iha h.1, ihb h.2]
  | lt a b iha ihb =>
      simp only [isNnf, Bool.and_eq_true] at h
      simp [isSafetyWalk, posOccUF, iha h.1, ihb h.2]

/-! ## Concrete instances used by the claims -/

/-- Bool state variable `x` of scenario S1. -/
def xS : Sym := .user 0 .bool
/-- Bool state variable `y` of scenario S1. -/
def yS : Sym := .user 1 .bool
/-- Bool state variable `z` of scenario S1. -/
def zS : Sym := .user 2 .bool
/-- The model of scenario S1: Bool state vars `x`, `y`, `z`. -/
def modelXYZ : Model := ⟨[xS, yS, zS], [], [], [], [], 0⟩
/-- The property of scenario S1: `X(x ∧ y) ∧ (x U z)`. -/
def phiS1 : Fm := .conj (.lx (.conj (.va xS) (.va yS))) (.lu (.va xS) (.va zS))
/-- The model produced by `ltl_encode` on scenario S1. -/
def c1res : Model := (ltl_encode modelXYZ phiS1).toOption.getD Model.empty

/-- Bool state variable `a`. -/
def aC : Sym := .user 0 .bool
/-- Bool state variable `b`. -/
def bC : Sym := .user 1 .bool
/-- A model with the single Bool state variable `a`. -/
def modelA : Model := ⟨[aC], [], [], [], [], 0⟩
/-- A model with Bool state variables `a` and `b`. -/
def modelAB : Model := ⟨[aC, bC], [], [], [], [], 0⟩

/-- The label allocated for the only subformula of `X a`. -/
def zSym0 : Sym := .fresh "LTL.Z.%d" 0
/-- The `is_init` variable allocated by the circuit encoder on `X a`. -/
def isInitSym : Sym := .fresh "is_init.%d" 1
/-- The `yz` monitor variable for the `X` monitor at counter 2. -/
def yzSym : Sym := .fresh "LTL.X.YZ.%d" 2

/-! ## Claims -/

/-- **C1**: for the model with Bool state vars `x, y, z` and
`φ = X(x ∧ y) ∧ (x U z)`, `ltl_encode` produces a model containing two fresh
tableau state variables `v_X` and `v_U`, TRANS constraints
`v_X ↔ NEXT(x ∧ y)` and `v_U ↔ NEXT(z ∨ (x ∧ v_U))`, the INIT constraint
`¬(v_X ∧ (z ∨ (x ∧ v_U)))`, and exactly one property: a live property at
index 0 whose formula is `¬s` for the single flattened justice state
variable `s`. -/
theorem ltl_encode_tableau_shape_S1 :
    ∃ vX vU s : Sym,
      ltl_encode modelXYZ phiS1 = .ok c1res ∧
      vX.isFresh = true ∧ vU.isFresh = true ∧ s.isFresh = true ∧
      vX ≠ vU ∧ vX ∉ modelXYZ.stateVars ∧ vU ∉ modelXYZ.stateVars ∧
      vX ∈ c1res.stateVars ∧ vU ∈ c1res.stateVars ∧ s ∈ c1res.stateVars ∧
      Fm.biimp (.va vX) (.nxt (.conj (.va xS) (.va yS))) ∈ c1res.trans ∧
      Fm.biimp (.va vU) (.nxt (.disj (.va zS) (.conj (.va xS) (.va vU))))
        ∈ c1res.trans ∧
      Fm.neg (.conj (.va vX) (.disj (.va zS) (.conj (.va xS) (.va vU))))
        ∈ c1res.init ∧
      c1res.props = [(0, PropKind.live, Fm.neg (.va s))] :=
  ⟨.fresh "el_x_%d" 0, .fresh "el_u_%d" 1, .fresh "J_%d" 2, by decide⟩

/-- **C4** (code bug): the LTLf walker's `T` handler dereferences the
never-assigned name `y_formula`, so it raises `NameError` instead of
allocating an elementary variable keyed by `Z(f T g)`; consequently
`ltlf_encode` fails on `φ = a S b`, whose rewritten negation-normal form is
`(¬a) T (¬b)`. -/
theorem ltlf_encode_T_name_error :
    ltlfNnf (.ls (.va aC) (.va bC)) = .lt (.neg (.va aC)) (.neg (.va bC)) ∧
    elwalkF (.lt (.neg (.va aC)) (.neg (.va bC))) ⟨[], 0⟩ = .error .nameError ∧
    ltlf_encode modelAB (.ls (.va aC) (.va bC)) = .error .nameError := by
  decide

/-- **C5** counterexample: on `φ = X a` the circuit encoder first negates
and NNF-izes, labelling the pair `(z₀, N ¬a)` — not `(z₀, X a)` — and then
`make_monitor` raises `NotImplementedError` because it has no branch for the
weak next operator, so no model is built. -/
theorem ltl_circuit_encode_X_raises :
    ltl_circuit_encode modelA (.lx (.va aC)) = .error .notImplemented ∧
    get_subformulae (nnfConvert (mkNot (.lx (.va aC)))) =
      ([(zSym0, .ln (.neg (.va aC)))], 1) := by
  decide

/-- **C5** amended: `ltl_circuit_encode` on `X a` raises
`NotImplementedError` (the negated NNF is `N ¬a`, for which `make_monitor`
has no case); the shapes the claim describes are produced for the
un-negated formula: the walker labels exactly the pair `(z₀, X a)`, and
`make_monitor(is_init, is_init, X a)` allocates `yz` with INIT `¬yz`, TRANS
`NEXT(yz) ↔ is_init`, `accept = ⊤`, `failed = yz ∧ ¬a`,
`pending = is_init`. -/
theorem ltl_circuit_monitor_X_shape :
    ltl_circuit_encode modelA (.lx (.va aC)) = .error .notImplemented ∧
    get_subformulae (.lx (.va aC)) = ([(zSym0, .lx (.va aC))], 1) ∧
    make_monitor (.va isInitSym) (.va isInitSym) (.lx (.va aC)) 2 =
      .ok ([yzSym], [.neg (.va yzSym)],
        [.biimp (.nxt (.va yzSym)) (.va isInitSym)],
        .top, .conj (.va yzSym) (.neg (.va aC)), .va isInitSym, 3) := by
  decide

/-- **C6**: on a formula in negation normal form, `is_safety_ltl` returns
`false` exactly when the formula contains a positive occurrence of `U` or
`F`; in particular it returns `true` on `G a`, `false` on `F a` and `false`
on `G(a ∨ F b)`. -/
theorem is_safety_ltl_positive_UF :
    (∀ φ : Fm, isNnf φ = true →
      (is_safety_ltl φ = false ↔ posOccUF true φ = true)) ∧
    is_safety_ltl (.lg (.va aC)) = true ∧
    is_safety_ltl (.lf (.va aC)) = false ∧
    is_safety_ltl (.lg (.disj (.va aC) (.lf (.va bC)))) = false := by
  refine ⟨fun φ h => ?_, by decide, by decide, by decide⟩
  rw [is_safety_ltl, Bool.not_eq_false', isSafetyWalk_eq_posOccUF φ h]

/-- Witness for C6 at the concrete NNF formula `G(a ∨ F b)`. -/
theorem is_safety_ltl_positive_UF_witness :
    is_safety_ltl (.lg (.disj (.va aC) (.lf (.va bC)))) = false ↔
      posOccUF true (.lg (.disj (.va aC) (.lf (.va bC)))) = true :=
  is_safety_ltl_positive_UF.1 _ (by decide)

/-- **C8** (code bug): `Model.add_ltlf_property` always raises `NameError`,
because `model.py` imports only `INVAR_PROPERTY`, `LIVE_PROPERTY` and
`LTL_PROPERTY` from `pyvmt.properties` and the body's reference to
`LTLF_PROPERTY` is unresolvable; no property is ever stored. -/
theorem add_ltlf_property_name_error (m : Model) (f : Fm) (idx : Option Nat) :
    m.add_ltlf_property f idx = .error .nameError := by
  unfold Model.add_ltlf_property
  rw [if_neg (by decide)]

/-- **C9**: `add_init` appends the formula to the init list exactly when all
free variables are declared state variables, the formula has no LTL
operator, no `NEXT`, and is of Bool type; otherwise it raises the
corresponding distinct error (checked in source order), returning no
updated model. -/
theorem add_init_gate (m : Model) (f : Fm) :
    ((f.freeVars.all fun s => m.isStateVariable s) = true ∧ f.hasLtl = false ∧
        f.hasNext = false ∧ f.typeOf = some .bool →
      m.add_init f = .ok { m with init := m.init ++ [f] }) ∧
    ((f.freeVars.all fun s => m.isStateVariable s) = false →
      m.add_init f = .error .stateVariableErr) ∧
    ((f.freeVars.all fun s => m.isStateVariable s) = true ∧ f.hasLtl = true →
      m.add_init f = .error .unexpectedLtl) ∧
    ((f.freeVars.all fun s => m.isStateVariable s) = true ∧ f.hasLtl = false ∧
        f.hasNext = true →
      m.add_init f = .error .unexpectedNext) ∧
    ((f.freeVars.all fun s => m.isStateVariable s) = true ∧ f.hasLtl = false ∧
        f.hasNext = false ∧ f.typeOf ≠ some .bool →
      m.add_init f = .error .pyvmtType) := by
  unfold Model.add_init
  refine ⟨?_, ?_, ?_, ?_, ?_⟩ <;> intro h <;> simp_all

/-- Witness for C9: adding the Bool state variable `a` itself as an init
constraint of `modelA` succeeds and appends it. -/
theorem add_init_gate_witness :
    modelA.add_init (.va aC) = .ok { modelA with init := modelA.init ++ [.va aC] } :=
  (add_init_gate modelA (.va aC)).1 (by decide)

/-! ## NEXT-pusher: leaf form and idempotence -/

lemma pushNextOn_spec (f : Fm) :
    ∀ B : List Sym, f.hasNext = false →
      ∃ r, pushNextOn B f = .ok r ∧ nextAtLeaves r = true ∧
        pushNextB B r = .ok r := by
  induction f with
  | va s =>
      intro B h
      by_cases hB : s ∈ B
      · exact ⟨.va s, by simp [pushNextOn, hB], rfl, rfl⟩
      · exact ⟨.nxt (.va s), by simp [pushNextOn, hB], rfl,
          by simp [pushNextB, pushNextOn, hB]⟩
  | top => intro B h; exact ⟨.top, rfl, rfl, rfl⟩
  | bot => intro B h; exact ⟨.bot, rfl, rfl, rfl⟩
  | num n => intro B h; exact ⟨.num n, rfl, rfl, rfl⟩
  | nxt a ih => intro B h; simp [Fm.hasNext] at h
  | neg a ih =>
      intro B h
      rw [show Fm.hasNext (.neg a) = a.hasNext from rfl] at h
      obtain ⟨r, e, l, p⟩ := ih B h
      exact ⟨.neg r, by simp [pushNextOn, ckNoNext, h, e, bind, Except.bind],
        by simpa [nextAtLeaves] using l,
        by simp [pushNextB, p, bind, Except.bind]⟩
  | conj a b iha ihb =>
      intro B h
      simp only [Fm.hasNext, Bool.or_eq_false_iff] at h
      obtain ⟨r1, e1, l1, p1⟩ := iha B h.1
      obtain ⟨r2, e2, l2, p2⟩ := ihb B h.2
      exact ⟨.conj r1 r2,
        by simp [pushNextOn, ckNoNext, h.1, h.2, e1, e2, bind, Except.bind],
        by simp [nextAtLeaves, l1, l2],
        by simp [pushNextB, p1, p2, bind, Except.bind]⟩
  | disj a b iha ihb =>
      intro B h
      simp only [Fm.hasNext, Bool.or_eq_false_iff] at h
      obtain ⟨r1, e1, l1, p1⟩ := iha B h.1
      obtain ⟨r2, e2, l2, p2⟩ := ihb B h.2
      exact ⟨.disj r1 r2,
        by simp [pushNextOn, ckNoNext, h.1, h.2, e1, e2, bind, Except.bind],
        by simp [nextAtLeaves, l1, l2],
        by simp [pushNextB, p1, p2, bind, Except.bind]⟩
  | biimp a b iha ihb =>
      intro B h
      simp only [Fm.hasNext, Bool.or_eq_false_iff] at h
      obtain ⟨r1, e1, l1, p1⟩ := iha B h.1
      obtain ⟨r2, e2, l2, p2⟩ := ihb B h.2
      exact ⟨.biimp r1 r2,
        by simp [pushNextOn, ckNoNext, h.1, h.2, e1, e2, bind, Except.bind],
        by simp [nextAtLeaves, l1, l2],
        by simp [pushNextB, p1, p2, bind, Except.bind]⟩
  | impl a b iha ihb =>
      intro B h
      simp only [Fm.hasNext, Bool.or_eq_false_iff] at h
      obtain ⟨r1, e1, l1, p1⟩ := iha B h.1
      obtain ⟨r2, e2, l2, p2⟩ := ihb B h.2
      exact ⟨.impl r1 r2,
        by simp [pushNextOn, ckNoNext, h.1, h.2, e1, e2, bind, Except.bind],
        by simp [nextAtLeaves, l1, l2],
        by simp [pushNextB, p1, p2, bind, Except.bind]⟩
  | fite c a b ihc iha ihb =>
      intro B h
      simp only [Fm.hasNext, Bool.or_eq_false_iff] at h
      obtain ⟨r0, e0, l0, p0⟩ := ihc B h.1.1
      obtain ⟨r1, e1, l1, p1⟩ := iha B h.1.2
      obtain ⟨r2, e2, l2, p2⟩ := ihb B h.2
      exact ⟨.fite r0 r1 r2,
        by simp [pushNextOn, ckNoNext, h.1.1, h.1.2, h.2, e0, e1, e2, bind,
          Except.bind],
        by simp [nextAtLeaves, l0, l1, l2],
        by simp [pushNextB, p0, p1, p2, bind, Except.bind]⟩
  | eqn a b iha ihb =>
      intro B h
      simp only [Fm.hasNext, Bool.or_eq_false_iff] at h
      obtain ⟨r1, e1, l1, p1⟩ := iha B h.1
      obtain ⟨r2, e2, l2, p2⟩ := ihb B h.2
      exact ⟨.eqn r1 r2,
        by simp [pushNextOn, ckNoNext, h.1, h.2, e1, e2, bind, Except.bind],
        by simp [nextAtLeaves, l1, l2],
        by simp [pushNextB, p1, p2, bind, Except.bind]⟩
  | exq v a ih =>
      intro B h
      rw [show Fm.hasNext (.exq v a) = a.hasNext from rfl] at h
      obtain ⟨r, e, l, p⟩ := ih (v :: B) h
      exact ⟨.exq v r, by simp [pushNextOn, ckNoNext, h, e, bind, Except.bind],
        by simpa [nextAtLeaves] using l,
        by simp [pushNextB, p, bind, Except.bind]⟩
  | alq v a ih =>
      intro B h
      rw [show Fm.hasNext (.alq v a) = a.hasNext from rfl] at h
      obtain ⟨r, e, l, p⟩ := ih (v :: B) h
      exact ⟨.alq v r, by simp [pushNextOn, ckNoNext, h, e, bind, Except.bind],
        by simpa [nextAtLeaves] using l,
        by simp [pushNextB, p, bind, Except.bind]⟩
  | lx a ih =>
      intro B h
      rw [show Fm.hasNext (.lx a) = a.hasNext from rfl] at h
      obtain ⟨r, e, l, p⟩ := ih B h
      exact ⟨.lx r, by simp [pushNextOn, ckNoNext, h, e, bind, Except.bind],
        by simpa [nextAtLeaves] using l,
        by simp [pushNextB, p, bind, Except.bind]⟩
  | ln a ih =>
      intro B h
      rw [show Fm.hasNext (.ln a) = a.hasNext from rfl] at h
      obtain ⟨r, e, l, p⟩ := ih B h
      exact ⟨.ln r, by simp [pushNextOn, ckNoNext, h, e, bind, Except.bind],
        by simpa [nextAtLeaves] using l,
        by simp [pushNextB, p, bind, Except.bind]⟩
  | lf a ih =>
      intro B h
      rw [show Fm.hasNext (.lf a) = a.hasNext from rfl] at h
      obtain ⟨r, e, l, p⟩ := ih B h
      exact ⟨.lf r, by simp [pushNextOn, ckNoNext, h, e, bind, Except.bind],
        by simpa [nextAtLeaves] using l,
        by simp [pushNextB, p, bind, Except.bind]⟩
  | lg a ih =>
      intro B h
      rw [show Fm.hasNext (.lg a) = a.hasNext from rfl] at h
      obtain ⟨r, e, l, p⟩ := ih B h
      exact ⟨.lg r, by simp [pushNextOn, ckNoNext, h, e, bind, Except.bind],
        by simpa [nextAtLeaves] using l,
        by simp [pushNextB, p, bind, Except.bind]⟩
  | ly a ih =>
      intro B h
      rw [show Fm.hasNext (.ly a) = a.hasNext from rfl] at h
      obtain ⟨r, e, l, p⟩ := ih B h
      exact ⟨.ly r, by simp [pushNextOn, ckNoNext, h, e, bind, Except.bind],
        by simpa [nextAtLeaves] using l,
        by simp [pushNextB, p, bind, Except.bind]⟩
  | lz a ih =>
      intro B h
      rw [show Fm.hasNext (.lz a) = a.hasNext from rfl] at h
      obtain ⟨r, e, l, p⟩ := ih B h
      exact ⟨.lz r, by simp [pushNextOn, ckNoNext, h, e, bind, Except.bind],
        by simpa [nextAtLeaves] using l,
        by simp [pushNextB, p, bind, Except.bind]⟩
  | lo a ih =>
      intro B h
      rw [show Fm.hasNext (.lo a) = a.hasNext from rfl] at h
      obtain ⟨r, e, l, p⟩ := ih B h
      exact ⟨.lo r, by simp [pushNextOn, ckNoNext, h, e, bind, Except.bind],
        by simpa [nextAtLeaves] using l,
        by simp [pushNextB, p, bind, Except.bind]⟩
  | lh a ih =>
      intro B h
      rw [show Fm.hasNext (.lh a) = a.hasNext from rfl] at h
      obtain ⟨r, e, l, p⟩ := ih B h
      exact ⟨.lh r, by simp [pushNextOn, ckNoNext, h, e, bind, Except.bind],
        by simpa [nextAtLeaves] using l,
        by simp [pushNextB, p, bind, Except.bind]⟩
  | lu a b iha ihb =>
      intro B h
      simp only [Fm.hasNext, Bool.or_eq_false_iff] at h
      obtain ⟨r1, e1, l1, p1⟩ := iha B h.1
      obtain ⟨r2, e2, l2, p2⟩ := ihb B h.2
      exact ⟨.lu r1 r2,
        by simp [pushNextOn, ckNoNext, h.1, h.2, e1, e2, bind, Except.bind],
        by simp [nextAtLeaves, l1, l2],
        by simp [pushNextB, p1, p2, bind, Except.bind]⟩
  | lr a b iha ihb =>
      intro B h
      simp only [Fm.hasNext, Bool.or_eq_false_iff] at h
      obtain ⟨r1, e1, l1, p1⟩ := iha B h.1
      obtain ⟨r2, e2, l2, p2⟩ := ihb B h.2
      exact ⟨.lr r1 r2,
        by simp [pushNextOn, ckNoNext, h.1, h.2, e1, e2, bind, Except.bind],
        by simp [nextAtLeaves, l1, l2],
        by simp [pushNextB, p1, p2, bind, Except.bind]⟩
  | ls a b iha ihb =>
      intro B h
      simp only [Fm.hasNext, Bool.or_eq_false_iff] at h
      obtain ⟨r1, e1, l1, p1⟩ := iha B h.1
      obtain ⟨r2, e2, l2, p2⟩ := ihb B h.2
      exact ⟨.ls r1 r2,
        by simp [pushNextOn, ckNoNext, h.1, h.2, e1, e2, bind, Except.bind],
        by simp [nextAtLeaves, l1, l2],
        by simp [pushNextB, p1, p2, bind, Except.bind]⟩
  | lt a b iha ihb =>
      intro B h
      simp only [Fm.hasNext, Bool.or_eq_false_iff] at h
      obtain ⟨r1, e1, l1, p1⟩ := iha B h.1
      obtain ⟨r2, e2, l2, p2⟩ := ihb B h.2
      exact ⟨.lt r1 r2,
        by simp [pushNextOn, ckNoNext, h.1, h.2, e1, e2, bind, Except.bind],
        by simp [nextAtLeaves, l1, l2],
        by simp [pushNextB, p1, p2, bind, Except.bind]⟩

lemma pushNextB_spec (f : Fm) :
    ∀ B : List Sym, hasNestedNext f = false →
      ∃ r, pushNextB B f = .ok r ∧ nextAtLeaves r = true ∧
        pushNextB B r = .ok r := by
  induction f with
  | va s => intro B h; exact ⟨.va s, rfl, rfl, rfl⟩
  | top => intro B h; exact ⟨.top, rfl, rfl, rfl⟩
  | bot => intro B h; exact ⟨.bot, rfl, rfl, rfl⟩
  | num n => intro B h; exact ⟨.num n, rfl, rfl, rfl⟩
  | nxt a ih =>
      intro B h
      simp only [hasNestedNext, Bool.or_eq_false_iff] at h
      obtain ⟨r, e, l, p⟩ := pushNextOn_spec a B h.1
      exact ⟨r, e, l, p⟩
  | neg a ih =>
      intro B h
      rw [show hasNestedNext (.neg a) = hasNestedNext a from rfl] at h
      obtain ⟨r, e, l, p⟩ := ih B h
      exact ⟨.neg r, by simp [pushNextB, e, bind, Except.bind],
        by simpa [nextAtLeaves] using l,
        by simp [pushNextB, p, bind, Except.bind]⟩
  | conj a b iha ihb =>
      intro B h
      simp only [hasNestedNext, Bool.or_eq_false_iff] at h
      obtain ⟨r1, e1, l1, p1⟩ := iha B h.1
      obtain ⟨r2, e2, l2, p2⟩ := ihb B h.2
      exact ⟨.conj r1 r2, by simp [pushNextB, e1, e2, bind, Except.bind],
        by simp [nextAtLeaves, l1, l2],
        by simp [pushNextB, p1, p2, bind, Except.bind]⟩
  | disj a b iha ihb =>
      intro B h
      simp only [hasNestedNext, Bool.or_eq_false_iff] at h
      obtain ⟨r1, e1, l1, p1⟩ := iha B h.1
      obtain ⟨r2, e2, l2, p2⟩ := ihb B h.2
      exact ⟨.disj r1 r2, by simp [pushNextB, e1, e2, bind, Except.bind],
        by simp [nextAtLeaves, l1, l2],
        by simp [pushNextB, p1, p2, bind, Except.bind]⟩
  | biimp a b iha ihb =>
      intro B h
      simp only [hasNestedNext, Bool.or_eq_false_iff] at h
      obtain ⟨r1, e1, l1, p1⟩ := iha B h.1
      obtain ⟨r2, e2, l2, p2⟩ := ihb B h.2
      exact ⟨.biimp r1 r2, by simp [pushNextB, e1, e2, bind, Except.bind],
        by simp [nextAtLeaves, l1, l2],
        by simp [pushNextB, p1, p2, bind, Except.bind]⟩
  | impl a b iha ihb =>
      intro B h
      simp only [hasNestedNext, Bool.or_eq_false_iff] at h
      obtain ⟨r1, e1, l1, p1⟩ := iha B h.1
      obtain ⟨r2, e2, l2, p2⟩ := ihb B h.2
      exact ⟨.impl r1 r2, by simp [pushNextB, e1, e2, bind, Except.bind],
        by simp [nextAtLeaves, l1, l2],
        by simp [pushNextB, p1, p2, bind, Except.bind]⟩
  | fite c a b ihc iha ihb =>
      intro B h
      simp only [hasNestedNext, Bool.or_eq_false_iff] at h
      obtain ⟨r0, e0, l0, p0⟩ := ihc B h.1.1
      obtain ⟨r1, e1, l1, p1⟩ := iha B h.1.2
      obtain ⟨r2, e2, l2, p2⟩ := ihb B h.2
      exact ⟨.fite r0 r1 r2, by simp [pushNextB, e0, e1, e2, bind, Except.bind],
        by simp [nextAtLeaves, l0, l1, l2],
        by simp [pushNextB, p0, p1, p2, bind, Except.bind]⟩
  | eqn a b iha ihb =>
      intro B h
      simp only [hasNestedNext, Bool.or_eq_false_iff] at h
      obtain ⟨r1, e1, l1, p1⟩ := iha B h.1
      obtain ⟨r2, e2, l2, p2⟩ := ihb B h.2
      exact ⟨.eqn r1 r2, by simp [pushNextB, e1, e2, bind, Except.bind],
        by simp [nextAtLeaves, l1, l2],
        by simp [pushNextB, p1, p2, bind, Except.bind]⟩
  | exq v a ih =>
      intro B h
      rw [show hasNestedNext (.exq v a) = hasNestedNext a from rfl] at h
      obtain ⟨r, e, l, p⟩ := ih (v :: B) h
      exact ⟨.exq v r, by simp [pushNextB, e, bind, Except.bind],
        by simpa [nextAtLeaves] using l,
        by simp [pushNextB, p, bind, Except.bind]⟩
  | alq v a ih =>
      intro B h
      rw [show hasNestedNext (.alq v a) = hasNestedNext a from rfl] at h
      obtain ⟨r, e, l, p⟩ := ih (v :: B) h
      exact ⟨.alq v r, by simp [pushNextB, e, bind, Except.bind],
        by simpa [nextAtLeaves] using l,
        by simp [pushNextB, p, bind, Except.bind]⟩
  | lx a ih =>
      intro B h
      rw [show hasNestedNext (.lx a) = hasNestedNext a from rfl] at h
      obtain ⟨r, e, l, p⟩ := ih B h
      exact ⟨.lx r, by simp [pushNextB, e, bind, Except.bind],
        by simpa [nextAtLeaves] using l,
        by simp [pushNextB, p, bind, Except.bind]⟩
  | ln a ih =>
      intro B h
      rw [show hasNestedNext (.ln a) = hasNestedNext a from rfl] at h
      obtain ⟨r, e, l, p⟩ := ih B h
      exact ⟨.ln r, by simp [pushNextB, e, bind, Except.bind],
        by simpa [nextAtLeaves] using l,
        by simp [pushNextB, p, bind, Except.bind]⟩
  | lf a ih =>
      intro B h
      rw [show hasNestedNext (.lf a) = hasNestedNext a from rfl] at h
      obtain ⟨r, e, l, p⟩ := ih B h
      exact ⟨.lf r, by simp [pushNextB, e, bind, Except.bind],
        by simpa [nextAtLeaves] using l,
        by simp [pushNextB, p, bind, Except.bind]⟩
  | lg a ih =>
      intro B h
      rw [show hasNestedNext (.lg a) = hasNestedNext a from rfl] at h
      obtain ⟨r, e, l, p⟩ := ih B h
      exact ⟨.lg r, by simp [pushNextB, e, bind, Except.bind],
        by simpa [nextAtLeaves] using l,
        by simp [pushNextB, p, bind, Except.bind]⟩
  | ly a ih =>
      intro B h
      rw [show hasNestedNext (.ly a) = hasNestedNext a from rfl] at h
      obtain ⟨r, e, l, p⟩ := ih B h
      exact ⟨.ly r, by simp [pushNextB, e, bind, Except.bind],
        by simpa [nextAtLeaves] using l,
        by simp [pushNextB, p, bind, Except.bind]⟩
  | lz a ih =>
      intro B h
      rw [show hasNestedNext (.lz a) = hasNestedNext a from rfl] at h
      obtain ⟨r, e, l, p⟩ := ih B h
      exact ⟨.lz r, by simp [pushNextB, e, bind, Except.bind],
        by simpa [nextAtLeaves] using l,
        by simp [pushNextB, p, bind, Except.bind]⟩
  | lo a ih =>
      intro B h
      rw [show hasNestedNext (.lo a) = hasNestedNext a from rfl] at h
      obtain ⟨r, e, l, p⟩ := ih B h
      exact ⟨.lo r, by simp [pushNextB, e, bind, Except.bind],
        by simpa [nextAtLeaves] using l,
        by simp [pushNextB, p, bind, Except.bind]⟩
  | lh a ih =>
      intro B h
      rw [show hasNestedNext (.lh a) = hasNestedNext a from rfl] at h
      obtain ⟨r, e, l, p⟩ := ih B h
      exact ⟨.lh r, by simp [pushNextB, e, bind, Except.bind],
        by simpa [nextAtLeaves] using l,
        by simp [pushNextB, p, bind, Except.bind]⟩
  | lu a b iha ihb =>
      intro B h
      simp only [hasNestedNext, Bool.or_eq_false_iff] at h
      obtain ⟨r1, e1, l1, p1⟩ := iha B h.1
      obtain ⟨r2, e2, l2, p2⟩ := ihb B h.2
      exact ⟨.lu r1 r2, by simp [pushNextB, e1, e2, bind, Except.bind],
        by simp [nextAtLeaves, l1, l2],
        by simp [pushNextB, p1, p2, bind, Except.bind]⟩
  | lr a b iha ihb =>
      intro B h
      simp only [hasNestedNext, Bool.or_eq_false_iff] at h
      obtain ⟨r1, e1, l1, p1⟩ := iha B h.1
      obtain ⟨r2, e2, l2, p2⟩ := ihb B h.2
      exact ⟨.lr r1 r2, by simp [pushNextB, e1, e2, bind, Except.bind],
        by simp [nextAtLeaves, l1, l2],
        by simp [pushNextB, p1, p2, bind, Except.bind]⟩
  | ls a b iha ihb =>
      intro B h
      simp only [hasNestedNext, Bool.or_eq_false_iff] at h
      obtain ⟨r1, e1, l1, p1⟩ := iha B h.1
      obtain ⟨r2, e2, l2, p2⟩ := ihb B h.2
      exact ⟨.ls r1 r2, by simp [pushNextB, e1, e2, bind, Except.bind],
        by simp [nextAtLeaves, l1, l2],
        by simp [pushNextB, p1, p2, bind, Except.bind]⟩
  | lt a b iha ihb =>
      intro B h
      simp only [hasNestedNext, Bool.or_eq_false_iff] at h
      obtain ⟨r1, e1, l1, p1⟩ := iha B h.1
      obtain ⟨r2, e2, l2, p2⟩ := ihb B h.2
      exact ⟨.lt r1 r2, by simp [pushNextB, e1, e2, bind, Except.bind],
        by simp [nextAtLeaves, l1, l2],
        by simp [pushNextB, p1, p2, bind, Except.bind]⟩

/-- The Int symbol bound by the quantifier in scenario S5. -/
def intS : Sym := .user 2 .int

/-- **C3**: on every formula without nested `NEXT`, `push_next` succeeds,
leaves every `NEXT` on a symbol leaf, and is idempotent; in particular
`push_next(NEXT(a ∨ b)) = NEXT(a) ∨ NEXT(b)` and
`push_next(NEXT(∃x. a ∧ x = 0)) = ∃x. NEXT(a) ∧ x = 0` — the `NEXT` is
stripped from the quantifier-bound `x` rather than placed on it. -/
theorem push_next_idempotent_leaf_form :
    (∀ φ : Fm, hasNestedNext φ = false →
      ∃ r, push_next φ = .ok r ∧ nextAtLeaves r = true ∧ push_next r = .ok r) ∧
    push_next (.nxt (.disj (.va aC) (.va bC))) =
      .ok (.disj (.nxt (.va aC)) (.nxt (.va bC))) ∧
    push_next (.nxt (.exq intS (.conj (.va aC) (.eqn (.va intS) (.num 0))))) =
      .ok (.exq intS (.conj (.nxt (.va aC)) (.eqn (.va intS) (.num 0)))) :=
  ⟨fun φ h => pushNextB_spec φ [] h, by decide, by decide⟩

/-- Witness for C3 at the concrete formula `NEXT(a ∨ b)`. -/
theorem push_next_idempotent_leaf_form_witness :
    ∃ r, push_next (.nxt (.disj (.va aC) (.va bC))) = .ok r ∧
      nextAtLeaves r = true ∧ push_next r = .ok r :=
  push_next_idempotent_leaf_form.1 _ (by decide)

/-! ## Success-direction fold lemmas (used for composition) -/

lemma foldlM_add_input_var_build (L : List Sym) :
    ∀ m : Model, L.Nodup → (∀ s ∈ L, m.isDeclared s = false) →
      L.foldlM (fun acc s => acc.add_input_var s) m =
        .ok { m with inputVars := m.inputVars ++ L } := by
  induction L with
  | nil => intro m _ _; simp [pure, Except.pure]
  | cons s L ih =>
      intro m hn hd
      have hds : m.isDeclared s = false := hd s (by simp)
      have h1 : m.add_input_var s = .ok { m with inputVars := m.inputVars ++ [s] } := by
        unfold Model.add_input_var
        rw [if_neg (by simp [hds])]
      rw [List.foldlM_cons, h1]
      simp only [bind, Except.bind]
      have hd' : ∀ x ∈ L, Model.isDeclared
          { m with inputVars := m.inputVars ++ [s] } x = false := by
        intro x hx
        have hxs : x ≠ s := by
          rintro rfl
          exact (List.nodup_cons.mp hn).1 hx
        have := hd x (by simp [hx])
        simp only [Model.isDeclared, Model.isInputVariable, Model.isStateVariable,
          Bool.or_eq_false_iff, Bool.and_eq_false_iff, decide_eq_false_iff_not] at this ⊢
        refine ⟨?_, this.2⟩
        simp only [List.mem_append, List.mem_singleton]
        rintro (hmem | rfl)
        · exact this.1 hmem
        · exact hxs rfl
      rw [ih _ (List.nodup_cons.mp hn).2 hd']
      simp

lemma foldlM_add_init_build (fs : List Fm) :
    ∀ m : Model,
      (∀ f ∈ fs, (f.freeVars.all fun s => m.isStateVariable s) = true ∧
        f.hasLtl = false ∧ f.hasNext = false ∧ f.typeOf = some .bool) →
      fs.foldlM (fun acc f => acc.add_init f) m =
        .ok { m with init := m.init ++ fs} := by
  induction fs with
  | nil => intro m _; simp [pure, Except.pure]
  | cons f fs ih =>
      intro m hc
      obtain ⟨c1, c2, c3, c4⟩ := hc f (by simp)
      have h1 : m.add_init f = .ok { m with init := m.init ++ [f] } := by
        unfold Model.add_init
        rw [if_neg (by simp [c1]), if_neg (by simp [c2]), if_neg (by simp [c3]),
          if_neg (by simp [c4])]
      rw [List.foldlM_cons, h1]
      simp only [bind, Except.bind]
      have hc' : ∀ g ∈ fs, (g.freeVars.all fun s =>
          Model.isStateVariable { m with init := m.init ++ [f] } s) = true ∧
          g.hasLtl = false ∧ g.hasNext = false ∧ g.typeOf = some .bool :=
        fun g hg => hc g (by simp [hg])
      rw [ih _ hc']
      simp

lemma foldlM_add_trans_build (fs : List Fm) :
    ∀ m : Model,
      (∀ f ∈ fs, (f.freeVars.all fun s => m.isDeclared s) = true ∧
        f.typeOf = some .bool ∧ f.hasLtl = false) →
      fs.foldlM (fun acc f => acc.add_trans f) m =
        .ok { m with trans := m.trans ++ fs} := by
  induction fs with
  | nil => intro m _; simp [pure, Except.pure]
  | cons f fs ih =>
      intro m hc
      obtain ⟨c1, c2, c3⟩ := hc f (by simp)
      have h1 : m.add_trans f = .ok { m with trans := m.trans ++ [f] } := by
        unfold Model.add_trans
        rw [if_neg (by simp [c1]), if_neg (by simp [c2]), if_neg (by simp [c3])]
      rw [List.foldlM_cons, h1]
      simp only [bind, Except.bind]
      have hc' : ∀ g ∈ fs, (g.freeVars.all fun s =>
          Model.isDeclared { m with trans := m.trans ++ [f] } s) = true ∧
          g.typeOf = some .bool ∧ g.hasLtl = false :=
        fun g hg => hc g (by simp [hg])
      rw [ih _ hc']
      simp

lemma propertyIdxFree_iff (m : Model) (idx : Nat) :
    m.isPropertyIdxFree idx = true ↔ ∀ p ∈ m.props, ¬ (p.1 = idx) := by
  unfold Model.isPropertyIdxFree
  rw [Option.isNone_iff_eq_none, List.find?_eq_none]
  simp

lemma exc_bind_ok {α β : Type} (a : α) (f : α → Except PyErr β) :
    (Except.ok a >>= f) = f a := rfl

lemma foldlM_add_property_build (ps : List (Nat × PropKind × Fm)) :
    ∀ m : Model,
      (∀ p ∈ ps, m.isPropertyIdxFree p.1 = true) →
      (ps.map fun p => p.1).Nodup →
      (∀ p ∈ ps,
        ((p.2.2).freeVars.all fun s => m.isDeclared s) = true ∧
        Model.vmtPropertyOk p.2.1 p.2.2 = .ok ()) →
      ps.foldlM
        (fun m p => do let (m, _) ← m.add_property p.2.1 p.2.2 (some p.1); pure m)
        m = .ok { m with props := m.props ++ ps } := by
  induction ps with
  | nil => intro m _ _ _; simp [pure, Except.pure]
  | cons p ps ih =>
      intro m hfree hnd hok
      obtain ⟨i, pt, f⟩ := p
      have c1 := hfree (i, pt, f) (by simp)
      obtain ⟨c2, c3⟩ := hok (i, pt, f) (by simp)
      have h1 : m.add_property pt f (some i) =
          .ok ({ m with props := m.props ++ [(i, pt, f)] }, i) := by
        show Model.addPropertyCore m pt f i = _
        unfold Model.addPropertyCore
        rw [if_neg (by simp [c1]), if_neg (by simp [c2]), c3]
      rw [List.foldlM_cons, h1, exc_bind_ok]
      have hnd' : (ps.map fun p => p.1).Nodup :=
        (List.nodup_cons.mp (by simpa using hnd)).2
      have hhead : i ∉ ps.map fun p => p.1 :=
        (List.nodup_cons.mp (by simpa using hnd)).1
      have hfree' : ∀ q ∈ ps,
          Model.isPropertyIdxFree
            { m with props := m.props ++ [(i, pt, f)] } q.1 = true := by
        intro q hq
        have hqf := (propertyIdxFree_iff m q.1).mp (hfree q (by simp [hq]))
        have hqi : ¬ (i = q.1) := by
          intro he
          exact hhead (he ▸ List.mem_map_of_mem _ hq)
        rw [propertyIdxFree_iff]
        intro r hr
        simp only [List.mem_append, List.mem_singleton] at hr
        rcases hr with hr | hr
        · exact hqf r hr
        · rw [hr]; exact hqi
      have hrest := ih { m with props := m.props ++ [(i, pt, f)] } hfree' hnd'
        (fun q hq => hok q (by simp [hq]))
      exact hrest.trans (by simp)

lemma foldlM_add_property_dup (p : Nat × PropKind × Fm)
    (ps : List (Nat × PropKind × Fm)) (m : Model)
    (hdup : m.isPropertyIdxFree p.1 = false) :
    (p :: ps).foldlM
      (fun m p => do let (m, _) ← m.add_property p.2.1 p.2.2 (some p.1); pure m)
      m = .error .duplicatePropertyIdx := by
  have h1 : m.add_property p.2.1 p.2.2 (some p.1) =
      .error .duplicatePropertyIdx := by
    show Model.addPropertyCore m p.2.1 p.2.2 p.1 = _
    unfold Model.addPropertyCore
    rw [if_pos (by simp [hdup])]
  rw [List.foldlM_cons, h1]
  rfl

/-- `composeAdd` succeeds and concatenates the component's constraints and
properties when every init and trans constraint passes the checks against
the accumulator and every property carries a fresh index and passes the
`VmtProperty` checks. -/
lemma composeAdd_build (src acc : Model)
    (hinit : ∀ f ∈ src.init,
      (f.freeVars.all fun s => acc.isStateVariable s) = true ∧
      f.hasLtl = false ∧ f.hasNext = false ∧ f.typeOf = some .bool)
    (htrans : ∀ f ∈ src.trans,
      (f.freeVars.all fun s => acc.isDeclared s) = true ∧
      f.typeOf = some .bool ∧ f.hasLtl = false)
    (hpn : (src.props.map fun p => p.1).Nodup)
    (hpfree : ∀ p ∈ src.props, acc.isPropertyIdxFree p.1 = true)
    (hpok : ∀ p ∈ src.props,
      ((p.2.2).freeVars.all fun s => acc.isDeclared s) = true ∧
      Model.vmtPropertyOk p.2.1 p.2.2 = .ok ()) :
    composeAdd src acc =
      .ok { acc with init := acc.init ++ src.init,
                     trans := acc.trans ++ src.trans,
                     props := acc.props ++ src.props } := by
  unfold composeAdd
  rw [foldlM_add_init_build src.init acc hinit, exc_bind_ok]
  rw [foldlM_add_trans_build src.trans
    { acc with init := acc.init ++ src.init } (fun f hf => htrans f hf),
    exc_bind_ok]
  simp only []
  rw [foldlM_add_property_build src.props
    { acc with init := acc.init ++ src.init, trans := acc.trans ++ src.trans }
    (fun p hp => hpfree p hp) hpn (fun p hp => hpok p hp), exc_bind_ok]
  rfl

/-- `composeAdd` raises `DuplicatePropertyIdxError` when the component's
first property index is already occupied in the accumulator (the init and
trans folds run first and must pass their checks). -/
lemma composeAdd_dup (src acc : Model) (p : Nat × PropKind × Fm)
    (ps : List (Nat × PropKind × Fm))
    (hinit : ∀ f ∈ src.init,
      (f.freeVars.all fun s => acc.isStateVariable s) = true ∧
      f.hasLtl = false ∧ f.hasNext = false ∧ f.typeOf = some .bool)
    (htrans : ∀ f ∈ src.trans,
      (f.freeVars.all fun s => acc.isDeclared s) = true ∧
      f.typeOf = some .bool ∧ f.hasLtl = false)
    (hsrc : src.props = p :: ps)
    (hdup : acc.isPropertyIdxFree p.1 = false) :
    composeAdd src acc = .error .duplicatePropertyIdx := by
  unfold composeAdd
  rw [foldlM_add_init_build src.init acc hinit, exc_bind_ok]
  rw [foldlM_add_trans_build src.trans
    { acc with init := acc.init ++ src.init } (fun f hf => htrans f hf),
    exc_bind_ok]
  simp only []
  rw [hsrc, foldlM_add_property_dup p ps
    { acc with init := acc.init ++ src.init, trans := acc.trans ++ src.trans }
    hdup]
  rfl

/-- **C7** counterexample: `compose(M, M)` raises
`DuplicateDeclarationError` as soon as `M` has a state variable, because the
composer re-adds every state variable of the second component through
`add_state_var` (`composer.py` lines 56-58, `model.py` lines 63-66). -/
theorem compose_self_duplicate_declaration :
    compose modelA modelA = .error .duplicateDeclaration := by decide

/-- **C7** amended: `compose(M, M)` does not in general equal `M` up to
duplication of constraints.  For a well-formed model `M` without state
variables (whose stored properties, as guaranteed by their insertion
checks, carry pairwise distinct indices, declared free variables, and pass
the `VmtProperty` checks): if `M` carries no properties, `compose(M, M)`
succeeds and returns a model with the same (empty) state variables, the
same input variables as a set, no properties, and each INIT and TRANS
constraint of `M` appearing twice; if `M` carries any property,
`compose(M, M)` raises `DuplicatePropertyIdxError`, because every property
is transferred at its explicit index and the second transfer hits an
occupied index.  (With a state variable, `compose(M, M)` raises
`DuplicateDeclarationError` — the counterexample theorem.) -/
theorem compose_self_no_state_vars (M : Model) (hwf : M.wf)
    (hs : M.stateVars = [])
    (hpn : (M.props.map fun p => p.1).Nodup)
    (hpok : ∀ p ∈ M.props,
      ((p.2.2).freeVars.all fun s => M.isDeclared s) = true ∧
      Model.vmtPropertyOk p.2.1 p.2.2 = .ok ()) :
    (M.props = [] →
      ∃ m', compose M M = .ok m' ∧ m'.stateVars = [] ∧
        (∀ s, s ∈ m'.inputVars ↔ s ∈ M.inputVars) ∧
        m'.init = M.init ++ M.init ∧ m'.trans = M.trans ++ M.trans ∧
        m'.props = []) ∧
    (M.props ≠ [] → compose M M = .error .duplicatePropertyIdx) := by
  obtain ⟨hn1, hn2, hdisj, hinit, htrans⟩ := hwf
  -- every init constraint of a state-variable-free model is closed
  have hclosed : ∀ f ∈ M.init, f.freeVars = [] := by
    intro f hf
    obtain ⟨h1, -, -, -⟩ := hinit f hf
    rw [List.all_eq_true] at h1
    refine List.eq_nil_iff_forall_not_mem.mpr fun s hsmem => ?_
    have := h1 s hsmem
    rw [Model.isStateVariable, hs] at this
    simp at this
  -- the trans constraints only mention input variables
  have htransinp : ∀ f ∈ M.trans, ∀ s ∈ f.freeVars, s ∈ M.inputVars := by
    intro f hf s hsmem
    obtain ⟨h1, -, -⟩ := htrans f hf
    rw [List.all_eq_true] at h1
    have := h1 s hsmem
    rw [Model.isDeclared, Model.isInputVariable, Model.isStateVariable, hs] at this
    simpa using this
  have h1 : (M.stateVars ++ M.stateVars).foldlM
      (fun m s => m.add_state_var s) Model.empty = .ok Model.empty := by
    rw [hs]; rfl
  set D : List Sym := ((M.inputVars ++ M.inputVars).dedup.filter
    (fun s => ¬ Model.empty.isStateVariable s)) with hD
  have hmemD : ∀ s, s ∈ D ↔ s ∈ M.inputVars := by
    intro s
    rw [hD]
    simp [List.mem_filter, List.mem_dedup, Model.isStateVariable, Model.empty]
  have hDnodup : D.Nodup :=
    List.Nodup.filter _ (List.nodup_dedup _)
  have h2 : D.foldlM (fun m s => m.add_input_var s) Model.empty =
      .ok ⟨[], D, [], [], [], 0⟩ := by
    rw [foldlM_add_input_var_build D Model.empty hDnodup
      (fun s _ => by simp [Model.isDeclared, Model.isInputVariable,
        Model.isStateVariable, Model.empty])]
    rfl
  have hinitcond : ∀ (acc : Model) (f : Fm), f ∈ M.init →
      (f.freeVars.all fun s => acc.isStateVariable s) = true ∧
      f.hasLtl = false ∧ f.hasNext = false ∧ f.typeOf = some .bool := by
    intro acc f hf
    obtain ⟨-, h2', h3', h4'⟩ := hinit f hf
    refine ⟨?_, h2', h3', h4'⟩
    rw [List.all_eq_true]
    intro s hsmem
    rw [hclosed f hf] at hsmem
    simp at hsmem
  have htranscondD : ∀ (acc : Model), acc.inputVars = D → ∀ f ∈ M.trans,
      (f.freeVars.all fun s => acc.isDeclared s) = true ∧
      f.typeOf = some .bool ∧ f.hasLtl = false := by
    intro acc hacc f hf
    obtain ⟨-, h2', h3'⟩ := htrans f hf
    refine ⟨?_, h2', h3'⟩
    rw [List.all_eq_true]
    intro s hsmem
    have : s ∈ M.inputVars := htransinp f hf s hsmem
    rw [Model.isDeclared, Model.isInputVariable, hacc]
    simp [(hmemD s).mpr this]
  have hdeclprop : ∀ (acc : Model), acc.stateVars = [] → acc.inputVars = D →
      ∀ p ∈ M.props,
        ((p.2.2).freeVars.all fun s => acc.isDeclared s) = true ∧
        Model.vmtPropertyOk p.2.1 p.2.2 = .ok () := by
    intro acc ha hb p hpm
    obtain ⟨hd, hv⟩ := hpok p hpm
    refine ⟨?_, hv⟩
    rw [List.all_eq_true] at hd ⊢
    intro s hsmem
    have := hd s hsmem
    rw [Model.isDeclared, Model.isInputVariable, Model.isStateVariable, hs]
      at this
    rw [Model.isDeclared, Model.isInputVariable, Model.isStateVariable, ha, hb]
    simp at this ⊢
    exact (hmemD s).mpr this
  have h3 : composeAdd M ⟨[], D, [], [], [], 0⟩ =
      .ok ⟨[], D, M.init, M.trans, M.props, 0⟩ := by
    rw [composeAdd_build M ⟨[], D, [], [], [], 0⟩
      (fun f hf => hinitcond _ f hf) (htranscondD _ rfl) hpn
      (fun p _ => rfl) (hdeclprop _ rfl rfl)]
    rfl
  constructor
  · intro hp
    have hfree3 : ∀ p ∈ M.props, Model.isPropertyIdxFree
        ⟨[], D, M.init, M.trans, M.props, 0⟩ p.1 = true := by
      intro p hpm
      rw [hp] at hpm
      cases hpm
    have h4 := composeAdd_build M ⟨[], D, M.init, M.trans, M.props, 0⟩
      (fun f hf => hinitcond _ f hf) (htranscondD _ rfl) hpn hfree3
      (hdeclprop _ rfl rfl)
    refine ⟨⟨[], D, M.init ++ M.init, M.trans ++ M.trans, M.props ++ M.props, 0⟩,
      ?_, rfl, hmemD, rfl, rfl, by simp [hp]⟩
    unfold compose
    rw [h1]
    simp only [bind, Except.bind]
    rw [← hD, h2]
    simp only [bind, Except.bind]
    rw [h3]
    simp only [bind, Except.bind]
    rw [h4]
    rfl
  · intro hp
    obtain ⟨p0, ps, hcons⟩ := List.exists_cons_of_ne_nil hp
    have hnot : ¬ (Model.isPropertyIdxFree
        ⟨[], D, M.init, M.trans, M.props, 0⟩ p0.1 = true) := by
      rw [propertyIdxFree_iff]
      intro hall
      exact hall p0 (by simp [hcons]) rfl
    have hdup : Model.isPropertyIdxFree
        ⟨[], D, M.init, M.trans, M.props, 0⟩ p0.1 = false := by
      simpa using hnot
    have h4e := composeAdd_dup M ⟨[], D, M.init, M.trans, M.props, 0⟩ p0 ps
      (fun f hf => hinitcond _ f hf) (htranscondD _ rfl) hcons hdup
    unfold compose
    rw [h1]
    simp only [bind, Except.bind]
    rw [← hD, h2]
    simp only [bind, Except.bind]
    rw [h3]
    simp only [bind, Except.bind]
    rw [h4e]

/-- A well-formed model with one input variable, one (closed) init
constraint and one trans constraint, used as the C7 witness. -/
def modelInp : Model :=
  ⟨[], [.user 5 .bool], [.top], [.va (.user 5 .bool)], [], 0⟩

/-- `modelInp` extended with one stored property, exercising the
`DuplicatePropertyIdxError` branch of the C7 witness. -/
def modelProp : Model :=
  ⟨[], [.user 5 .bool], [.top], [.va (.user 5 .bool)], [(0, .invar, .top)], 1⟩

/-- Witness for the amended C7: the success shape at the property-free
`modelInp`, and the `DuplicatePropertyIdxError` at `modelProp`. -/
theorem compose_self_no_state_vars_witness :
    (∃ m', compose modelInp modelInp = .ok m' ∧ m'.stateVars = [] ∧
      (∀ s, s ∈ m'.inputVars ↔ s ∈ modelInp.inputVars) ∧
      m'.init = modelInp.init ++ modelInp.init ∧
      m'.trans = modelInp.trans ++ modelInp.trans ∧
      m'.props = []) ∧
    compose modelProp modelProp = .error .duplicatePropertyIdx :=
  ⟨(compose_self_no_state_vars modelInp (by decide) rfl (by decide)
      (by decide)).1 rfl,
   (compose_self_no_state_vars modelProp (by decide) rfl (by decide)
      (by decide)).2 (by decide)⟩

/-! ## The elementary loop of `ltlf_encode` -/

lemma Fm.isLX_isFutureLtl {k : Fm} (h : k.isLX = true) : k.isFutureLtl = true := by
  cases k <;> simp_all [Fm.isLX, Fm.isFutureLtl]

/-- The variables of the elementary entries keyed by an `LTL_X` formula, in
insertion order — the `x_vars` list collected by `ltlf_encode`. -/
def xVarsOf (el : List (Fm × Sym)) : List Sym :=
  (el.filter fun kv => kv.1.isLX).map fun kv => kv.2

/-- The left fold of `Or` starting from `FALSE` — the invariant formula
built by `ltlf_encode` from `x_vars`. -/
def xDisj (xs : List Sym) : Fm :=
  xs.foldl (fun acc v => Fm.disj acc (.va v)) .bot

/-- The transition constraints added by the elementary loop of
`ltlf_encode`, relative to the threaded walker state: a future-keyed entry
contributes the implication `Implies(v, Next(sat(child)))` where
`sat(child)` is the walker's value of the entry's first argument at the
current state, a past-keyed entry the biconditional `Iff(Next(v),
sat(child))`. -/
inductive LtlfLoopTrans : ElSt → List (Fm × Sym) → List Fm → Prop
  | nil (st : ElSt) : LtlfLoopTrans st [] []
  | consFut (st st1 : ElSt) (k : Fm) (v : Sym) (s : Fm)
      (rest : List (Fm × Sym)) (ts : List Fm) :
      elwalkF k.argZeroD st = .ok (s, st1) →
      k.isFutureLtl = true →
      LtlfLoopTrans st1 rest ts →
      LtlfLoopTrans st ((k, v) :: rest) (Fm.impl (.va v) (.nxt s) :: ts)
  | consPast (st st1 : ElSt) (k : Fm) (v : Sym) (s : Fm)
      (rest : List (Fm × Sym)) (ts : List Fm) :
      elwalkF k.argZeroD st = .ok (s, st1) →
      k.isFutureLtl = false →
      LtlfLoopTrans st1 rest ts →
      LtlfLoopTrans st ((k, v) :: rest) (Fm.biimp (.nxt (.va v)) s :: ts)

lemma ltlfStep_ok {mc : Model} {xv : List Sym} {st : ElSt} {k : Fm} {v : Sym}
    {res : Model × List Sym × ElSt}
    (h : ltlfStep (mc, xv, st) (k, v) = .ok res) :
    ∃ sat st',
      elwalkF k.argZeroD st = .ok (sat, st') ∧
      ((k.isFutureLtl = true ∧
          res = ({ mc with
                    stateVars := mc.stateVars ++ [v],
                    trans := mc.trans ++ [.impl (.va v) (.nxt sat)] },
                 (if k.isLX = true then xv ++ [v] else xv), st')) ∨
       (k.isFutureLtl = false ∧
          res = ({ mc with
                    stateVars := mc.stateVars ++ [v],
                    trans := mc.trans ++ [.biimp (.nxt (.va v)) sat] },
                 xv, st'))) := by
  unfold ltlfStep at h
  simp only at h
  cases h1 : mc.add_state_var v with
  | error e => rw [h1] at h; exact absurd h (by simp [bind, Except.bind])
  | ok mc1 =>
      rw [h1] at h
      simp only [bind, Except.bind] at h
      have hmc1 := Model.add_state_var_ok h1
      subst hmc1
      cases h2 : elwalkF k.argZeroD st with
      | error e => rw [h2] at h; exact absurd h (by simp)
      | ok p =>
          obtain ⟨sat, st'⟩ := p
          rw [h2] at h
          simp only at h
          refine ⟨sat, st', rfl, ?_⟩
          cases hF : k.isFutureLtl with
          | true =>
              rw [hF] at h
              simp only [if_true] at h
              cases hN : sat.hasNext with
              | true =>
                  have hmk : mkNext sat = .error .unexpectedNext := by
                    simp [mkNext, hN]
                  rw [hmk] at h
                  exact absurd h (by simp [bind, Except.bind])
              | false =>
                  have hmk : mkNext sat = .ok (.nxt sat) := by
                    simp [mkNext, hN]
                  rw [hmk] at h
                  simp only [bind, Except.bind] at h
                  cases h3 : Model.add_trans
                      { mc with stateVars := mc.stateVars ++ [v] }
                      (Fm.impl (.va v) (.nxt sat)) with
                  | error e => rw [h3] at h; exact absurd h (by simp)
                  | ok mc2 =>
                      rw [h3] at h
                      try simp only at h
                      have hmc2 := Model.add_trans_ok h3
                      subst hmc2
                      left
                      refine ⟨rfl, ?_⟩
                      cases hX : k.isLX with
                      | true =>
                          rw [hX] at h
                          simp only [if_true, pure, Except.pure,
                            Except.ok.injEq] at h
                          simp [← h]
                      | false =>
                          rw [hX] at h
                          simp only [Bool.false_eq_true, if_false, pure,
                            Except.pure, Except.ok.injEq] at h
                          simp [← h]
          | false =>
              rw [hF] at h
              simp only [Bool.false_eq_true, if_false] at h
              cases h3 : Model.add_trans
                  { mc with stateVars := mc.stateVars ++ [v] }
                  (Fm.biimp (.nxt (.va v)) sat) with
              | error e => rw [h3] at h; exact absurd h (by simp)
              | ok mc2 =>
                  rw [h3] at h
                  simp only [pure, Except.pure, Except.ok.injEq] at h
                  have hmc2 := Model.add_trans_ok h3
                  subst hmc2
                  right
                  exact ⟨rfl, by simp [← h]⟩

lemma ltlf_loop (el : List (Fm × Sym)) :
    ∀ (mc : Model) (xv : List Sym) (st : ElSt) (res : Model × List Sym × ElSt),
      el.foldlM ltlfStep (mc, xv, st) = .ok res →
      res.1.props = mc.props ∧ res.1.init = mc.init ∧
      res.1.nextPropIdx = mc.nextPropIdx ∧
      res.2.1 = xv ++ xVarsOf el ∧
      ∃ ts, res.1.trans = mc.trans ++ ts ∧ LtlfLoopTrans st el ts := by
  induction el with
  | nil =>
      intro mc xv st res h
      simp only [List.foldlM_nil, pure, Except.pure, Except.ok.injEq] at h
      subst h
      exact ⟨rfl, rfl, rfl, by simp [xVarsOf], [], by simp, .nil st⟩
  | cons kv rest ih =>
      intro mc xv st res h
      obtain ⟨k, v⟩ := kv
      rw [List.foldlM_cons] at h
      cases h1 : ltlfStep (mc, xv, st) (k, v) with
      | error e => rw [h1] at h; exact absurd h (by simp [bind, Except.bind])
      | ok acc1 =>
          rw [h1] at h
          simp only [bind, Except.bind] at h
          obtain ⟨sat, st', hw, hbr⟩ := ltlfStep_ok h1
          cases hbr with
          | inl hfut =>
              obtain ⟨hF, hacc⟩ := hfut
              subst hacc
              obtain ⟨p1, p2, p3, p4, ts, p5, p6⟩ := ih _ _ _ _ h
              refine ⟨by simpa using p1, by simpa using p2, by simpa using p3,
                ?_, Fm.impl (.va v) (.nxt sat) :: ts, ?_, ?_⟩
              · rw [p4]
                cases hX : k.isLX with
                | true => simp [xVarsOf, List.filter_cons, hX, List.append_assoc]
                | false => simp [xVarsOf, List.filter_cons, hX]
              · rw [p5]; simp
              · exact .consFut st st' k v sat rest ts hw hF p6
          | inr hpast =>
              obtain ⟨hF, hacc⟩ := hpast
              subst hacc
              obtain ⟨p1, p2, p3, p4, ts, p5, p6⟩ := ih _ _ _ _ h
              refine ⟨by simpa using p1, by simpa using p2, by simpa using p3,
                ?_, Fm.biimp (.nxt (.va v)) sat :: ts, ?_, ?_⟩
              · rw [p4]
                have hX : k.isLX = false := by
                  cases hXt : k.isLX
                  · rfl
                  · rw [Fm.isLX_isFutureLtl hXt] at hF; cases hF
                simp [xVarsOf, List.filter_cons, hX]
              · rw [p5]; simp
              · exact .consPast st st' k v sat rest ts hw hF p6

/-- No `LTL_T` (triggered) operator occurs in the formula. -/
def noT : Fm → Bool
  | .va _ | .top | .bot | .num _ => true
  | .neg a => noT a
  | .conj a b | .disj a b | .biimp a b | .impl a b | .eqn a b => noT a && noT b
  | .fite c a b => noT c && noT a && noT b
  | .exq _ a | .alq _ a => noT a
  | .nxt a => noT a
  | .lx a | .ln a | .lf a | .lg a | .ly a | .lz a | .lo a | .lh a => noT a
  | .lt _ _ => false
  | .lu a b | .lr a b | .ls a b => noT a && noT b

/-- No `LTL_U` (until) operator occurs in the formula. -/
def noU : Fm → Bool
  | .va _ | .top | .bot | .num _ => true
  | .neg a => noU a
  | .conj a b | .disj a b | .biimp a b | .impl a b | .eqn a b => noU a && noU b
  | .fite c a b => noU c && noU a && noU b
  | .exq _ a | .alq _ a => noU a
  | .nxt a => noU a
  | .lx a | .ln a | .lf a | .lg a | .ly a | .lz a | .lo a | .lh a => noU a
  | .lu _ _ => false
  | .lr a b | .ls a b | .lt a b => noU a && noU b

/-- **C2**: whenever `ltlf_encode` returns a model (the rewritten
negation-normal form containing no `T`, which would raise), the result
carries exactly one property — an invariant at index 0 whose formula is the
disjunction (left fold of `Or` over `FALSE`) of exactly the fresh
elementary variables whose elementary formula is an `LTL_X` node — and the
constraints added to TRANS by the elementary loop are the implication
`v → NEXT(sat(child))` for every future-operator elementary variable and
the biconditional `NEXT(v) ↔ sat(child)` for every past-operator one. -/
theorem ltlf_encode_shape (M : Model) (φ : Fm) (m' : Model)
    (hok : ltlf_encode M φ = .ok m') (hT : noT (ltlfNnf φ) = true) :
    ∃ r0 stF ts,
      elwalkF (ltlfNnf φ) ⟨[], 0⟩ = .ok (r0, stF) ∧
      m'.props = [(0, PropKind.invar, xDisj (xVarsOf stF.el))] ∧
      m'.trans = M.trans ++ ts ∧
      LtlfLoopTrans stF stF.el ts := by
  unfold ltlf_encode at hok
  simp only [bind, Except.bind] at hok
  cases hw0 : elwalkF (ltlfNnf φ) ⟨[], 0⟩ with
  | error e => rw [hw0] at hok; exact absurd hok (by simp)
  | ok p0 =>
      obtain ⟨r0, st0⟩ := p0
      rw [hw0] at hok
      simp only at hok
      cases hcp : copyModel M with
      | error e => rw [hcp] at hok; exact absurd hok (by simp)
      | ok mc0 =>
          rw [hcp] at hok
          simp only at hok
          have hmc0 := copyModel_ok hcp
          subst hmc0
          cases hlp : st0.el.foldlM ltlfStep
              (⟨M.stateVars, M.inputVars, M.init, M.trans, [], 0⟩, [], st0) with
          | error e => rw [hlp] at hok; exact absurd hok (by simp)
          | ok acc =>
              obtain ⟨mc1, xv1, st1⟩ := acc
              rw [hlp] at hok
              simp only at hok
              obtain ⟨p1, p2, p3, p4, ts, p5, p6⟩ := ltlf_loop _ _ _ _ _ hlp
              cases hw1 : elwalkF (ltlfNnf φ) st1 with
              | error e => rw [hw1] at hok; exact absurd hok (by simp)
              | ok p1' =>
                  obtain ⟨satRoot, st2⟩ := p1'
                  rw [hw1] at hok
                  simp only at hok
                  cases hai : mc1.add_init satRoot with
                  | error e => rw [hai] at hok; exact absurd hok (by simp)
                  | ok mc2 =>
                      rw [hai] at hok
                      simp only at hok
                      have hmc2 := Model.add_init_ok hai
                      subst hmc2
                      cases hap : Model.add_invar_property
                          { mc1 with init := mc1.init ++ [satRoot] }
                          (xv1.foldl (fun acc v => Fm.disj acc (.va v)) .bot) with
                      | error e =>
                          rw [hap] at hok; exact absurd hok (by simp)
                      | ok q =>
                          obtain ⟨mc3, i⟩ := q
                          rw [hap] at hok
                          simp only [pure, Except.pure, Except.ok.injEq] at hok
                          subst hok
                          unfold Model.add_invar_property Model.add_property at hap
                          simp only at hap
                          have hff : Model.firstFreeIdx
                              { mc1 with init := mc1.init ++ [satRoot] }
                              ({ mc1 with init := mc1.init ++ [satRoot] } :
                                Model).nextPropIdx
                              (({ mc1 with init := mc1.init ++ [satRoot] } :
                                Model).props.length + 1) = 0 := by
                            have hp1 : mc1.props = [] := by simpa using p1
                            have hn1 : mc1.nextPropIdx = 0 := by simpa using p3
                            simp [Model.firstFreeIdx, Model.isPropertyIdxFree,
                              hp1, hn1]
                          rw [hff] at hap
                          obtain ⟨hi, hm3⟩ := Model.addPropertyCore_ok hap
                          subst hm3
                          refine ⟨r0, st0, ts, rfl, ?_, ?_, p6⟩
                          · have hp1 : mc1.props = [] := by simpa using p1
                            have hxv : xv1 = xVarsOf st0.el := by simpa using p4
                            simp [hp1, hxv, xDisj]
                          · have : mc1.trans = M.trans ++ ts := by simpa using p5
                            simp [this]

/-- The property `G a`, used as the C2 witness. -/
def phiG : Fm := .lg (.va aC)
/-- The model produced by `ltlf_encode` on `modelA` and `G a`. -/
def c2res : Model := (ltlf_encode modelA phiG).toOption.getD Model.empty

/-- Witness for C2 at the concrete model `modelA` and property `G a`. -/
theorem ltlf_encode_shape_witness :
    ∃ r0 stF ts,
      elwalkF (ltlfNnf phiG) ⟨[], 0⟩ = .ok (r0, stF) ∧
      c2res.props = [(0, PropKind.invar, xDisj (xVarsOf stF.el))] ∧
      c2res.trans = modelA.trans ++ ts ∧
      LtlfLoopTrans stF stF.el ts :=
  ltlf_encode_shape modelA phiG c2res (by decide) (by decide)

/-! ## `ltl_encode` without Until: empty justice set -/

lemma noU_isU {x : Fm} (h : noU x = true) : x.isU = false := by
  cases x <;> simp_all [noU, Fm.isU]

/-- The per-entry invariant on the elementary map: every elementary
formula's first argument is Until-free. -/
def ElKeysNoU (el : List (Fm × Sym)) : Prop :=
  ∀ kv ∈ el, noU (Fm.argZeroD kv.1) = true

lemma elAlloc_keys {st : ElSt} {tmpl : String} {key : Fm} {v : Sym}
    {st2 : ElSt} (h : elAlloc st tmpl key = (v, st2))
    (hkeys : ElKeysNoU st.el) (hkey : noU key.argZeroD = true) :
    ElKeysNoU st2.el := by
  unfold elAlloc at h
  split at h
  · simp only [Prod.mk.injEq] at h
    rw [← h.2]
    exact hkeys
  · simp only [Prod.mk.injEq] at h
    rw [← h.2]
    intro kv hkv
    simp only [List.mem_append, List.mem_singleton] at hkv
    cases hkv with
    | inl hmem => exact hkeys kv hmem
    | inr heq => rw [heq]; exact hkey

lemma elwalkI_keys (f : Fm) :
    ∀ st r st', noU f = true → ElKeysNoU st.el →
      elwalkI f st = .ok (r, st') → ElKeysNoU st'.el := by
  induction f with
  | va s =>
      intro st r st' hU hk h
      simp only [elwalkI, Except.ok.injEq, Prod.mk.injEq] at h
      rw [← h.2]; exact hk
  | top =>
      intro st r st' hU hk h
      simp only [elwalkI, Except.ok.injEq, Prod.mk.injEq] at h
      rw [← h.2]; exact hk
  | bot =>
      intro st r st' hU hk h
      simp only [elwalkI, Except.ok.injEq, Prod.mk.injEq] at h
      rw [← h.2]; exact hk
  | num n =>
      intro st r st' hU hk h
      simp only [elwalkI, Except.ok.injEq, Prod.mk.injEq] at h
      rw [← h.2]; exact hk
  | neg a ih =>
      intro st r st' hU hk h
      rw [show noU (.neg a) = noU a from rfl] at hU
      simp only [elwalkI, bind, Except.bind] at h
      cases h1 : elwalkI a st with
      | error e => rw [h1] at h; exact absurd h (by simp)
      | ok p =>
          obtain ⟨ra, st1⟩ := p
          rw [h1] at h
          simp only [Except.ok.injEq, Prod.mk.injEq] at h
          rw [← h.2]
          exact ih st ra st1 hU hk h1
  | conj a b iha ihb =>
      intro st r st' hU hk h
      simp only [noU, Bool.and_eq_true] at hU
      simp only [elwalkI, bind, Except.bind] at h
      cases h1 : elwalkI a st with
      | error e => rw [h1] at h; exact absurd h (by simp)
      | ok p =>
          obtain ⟨ra, st1⟩ := p
          rw [h1] at h
          simp only at h
          cases h2 : elwalkI b st1 with
          | error e => rw [h2] at h; exact absurd h (by simp)
          | ok q =>
              obtain ⟨rb, st2⟩ := q
              rw [h2] at h
              simp only [Except.ok.injEq, Prod.mk.injEq] at h
              rw [← h.2]
              exact ihb st1 rb st2 hU.2 (iha st ra st1 hU.1 hk h1) h2
  | disj a b iha ihb =>
      intro st r st' hU hk h
      simp only [noU, Bool.and_eq_true] at hU
      simp only [elwalkI, bind, Except.bind] at h
      cases h1 : elwalkI a st with
      | error e => rw [h1] at h; exact absurd h (by simp)
      | ok p =>
          obtain ⟨ra, st1⟩ := p
          rw [h1] at h
          simp only at h
          cases h2 : elwalkI b st1 with
          | error e => rw [h2] at h; exact absurd h (by simp)
          | ok q =>
              obtain ⟨rb, st2⟩ := q
              rw [h2] at h
              simp only [Except.ok.injEq, Prod.mk.injEq] at h
              rw [← h.2]
              exact ihb st1 rb st2 hU.2 (iha st ra st1 hU.1 hk h1) h2
  | biimp a b iha ihb =>
      intro st r st' hU hk h
      simp only [noU, Bool.and_eq_true] at hU
      simp only [elwalkI, bind, Except.bind] at h
      cases h1 : elwalkI a st with
      | error e => rw [h1] at h; exact absurd h (by simp)
      | ok p =>
          obtain ⟨ra, st1⟩ := p
          rw [h1] at h
          simp only at h
          cases h2 : elwalkI b st1 with
          | error e => rw [h2] at h; exact absurd h (by simp)
          | ok q =>
              obtain ⟨rb, st2⟩ := q
              rw [h2] at h
              simp only [Except.ok.injEq, Prod.mk.injEq] at h
              rw [← h.2]
              exact ihb st1 rb st2 hU.2 (iha st ra st1 hU.1 hk h1) h2
  | impl a b iha ihb =>
      intro st r st' hU hk h
      simp only [noU, Bool.and_eq_true] at hU
      simp only [elwalkI, bind, Except.bind] at h
      cases h1 : elwalkI a st with
      | error e => rw [h1] at h; exact absurd h (by simp)
      | ok p =>
          obtain ⟨ra, st1⟩ := p
          rw [h1] at h
          simp only at h
          cases h2 : elwalkI b st1 with
          | error e => rw [h2] at h; exact absurd h (by simp)
          | ok q =>
              obtain ⟨rb, st2⟩ := q
              rw [h2] at h
              simp only [Except.ok.injEq, Prod.mk.injEq] at h
              rw [← h.2]
              exact ihb st1 rb st2 hU.2 (iha st ra st1 hU.1 hk h1) h2
  | eqn a b iha ihb =>
      intro st r st' hU hk h
      simp only [noU, Bool.and_eq_true] at hU
      simp only [elwalkI, bind, Except.bind] at h
      cases h1 : elwalkI a st with
      | error e => rw [h1] at h; exact absurd h (by simp)
      | ok p =>
          obtain ⟨ra, st1⟩ := p
          rw [h1] at h
          simp only at h
          cases h2 : elwalkI b st1 with
          | error e => rw [h2] at h; exact absurd h (by simp)
          | ok q =>
              obtain ⟨rb, st2⟩ := q
              rw [h2] at h
              simp only [Except.ok.injEq, Prod.mk.injEq] at h
              rw [← h.2]
              exact ihb st1 rb st2 hU.2 (iha st ra st1 hU.1 hk h1) h2
  | fite c a b ihc iha ihb =>
      intro st r st' hU hk h
      simp only [noU, Bool.and_eq_true] at hU
      simp only [elwalkI, bind, Except.bind] at h
      cases h1 : elwalkI c st with
      | error e => rw [h1] at h; exact absurd h (by simp)
      | ok p =>
          obtain ⟨rc, st1⟩ := p
          rw [h1] at h
          simp only at h
          cases h2 : elwalkI a st1 with
          | error e => rw [h2] at h; exact absurd h (by simp)
          | ok q =>
              obtain ⟨ra, st2⟩ := q
              rw [h2] at h
              simp only at h
              cases h3 : elwalkI b st2 with
              | error e => rw [h3] at h; exact absurd h (by simp)
              | ok q2 =>
                  obtain ⟨rb, st3⟩ := q2
                  rw [h3] at h
                  simp only [Except.ok.injEq, Prod.mk.injEq] at h
                  rw [← h.2]
                  exact ihb st2 rb st3 hU.2
                    (iha st1 ra st2 hU.1.2 (ihc st rc st1 hU.1.1 hk h1) h2) h3
  | exq v a ih =>
      intro st r st' hU hk h
      rw [show noU (.exq v a) = noU a from rfl] at hU
      simp only [elwalkI, bind, Except.bind] at h
      cases h1 : elwalkI a st with
      | error e => rw [h1] at h; exact absurd h (by simp)
      | ok p =>
          obtain ⟨ra, st1⟩ := p
          rw [h1] at h
          simp only [Except.ok.injEq, Prod.mk.injEq] at h
          rw [← h.2]
          exact ih st ra st1 hU hk h1
  | alq v a ih =>
      intro st r st' hU hk h
      rw [show noU (.alq v a) = noU a from rfl] at hU
      simp only [elwalkI, bind, Except.bind] at h
      cases h1 : elwalkI a st with
      | error e => rw [h1] at h; exact absurd h (by simp)
      | ok p =>
          obtain ⟨ra, st1⟩ := p
          rw [h1] at h
          simp only [Except.ok.injEq, Prod.mk.injEq] at h
          rw [← h.2]
          exact ih st ra st1 hU hk h1
  | nxt a ih =>
      intro st r st' hU hk h
      rw [show noU (.nxt a) = noU a from rfl] at hU
      simp only [elwalkI, bind, Except.bind] at h
      cases h1 : elwalkI a st with
      | error e => rw [h1] at h; exact absurd h (by simp)
      | ok p =>
          obtain ⟨ra, st1⟩ := p
          rw [h1] at h
          simp only at h
          unfold mkNext at h
          split at h
          · exact absurd h (by simp)
          · simp only [Except.ok.injEq, Prod.mk.injEq] at h
            rw [← h.2]
            exact ih st ra st1 hU hk h1
  | lx a ih =>
      intro st r st' hU hk h
      rw [show noU (.lx a) = noU a from rfl] at hU
      simp only [elwalkI, bind, Except.bind] at h
      cases h1 : elwalkI a st with
      | error e => rw [h1] at h; exact absurd h (by simp)
      | ok p =>
          obtain ⟨ra, st1⟩ := p
          rw [h1] at h
          simp only at h
          cases h2 : elAlloc st1 "el_x_%d" (.lx a) with
          | mk v2 st2 =>
              rw [h2] at h
              simp only [Except.ok.injEq, Prod.mk.injEq] at h
              rw [← h.2]
              exact elAlloc_keys h2 (ih st ra st1 hU hk h1) hU
  | ln a ih =>
      intro st r st' hU hk h
      simp [elwalkI] at h
  | lf a ih =>
      intro st r st' hU hk h
      simp [elwalkI] at h
  | lg a ih =>
      intro st r st' hU hk h
      simp [elwalkI] at h
  | lu a b iha ihb =>
      intro st r st' hU hk h
      simp [noU] at hU
  | lr a b iha ihb =>
      intro st r st' hU hk h
      simp [elwalkI] at h
  | ly a ih =>
      intro st r st' hU hk h
      rw [show noU (.ly a) = noU a from rfl] at hU
      simp only [elwalkI, bind, Except.bind] at h
      cases h1 : elwalkI a st with
      | error e => rw [h1] at h; exact absurd h (by simp)
      | ok p =>
          obtain ⟨ra, st1⟩ := p
          rw [h1] at h
          simp only at h
          cases h2 : elAlloc st1 "el_y_%d" (.ly a) with
          | mk v2 st2 =>
              rw [h2] at h
              simp only [Except.ok.injEq, Prod.mk.injEq] at h
              rw [← h.2]
              exact elAlloc_keys h2 (ih st ra st1 hU hk h1) hU
  | lz a ih =>
      intro st r st' hU hk h
      simp [elwalkI] at h
  | lo a ih =>
      intro st r st' hU hk h
      simp [elwalkI] at h
  | lh a ih =>
      intro st r st' hU hk h
      simp [elwalkI] at h
  | ls a b iha ihb =>
      intro st r st' hU hk h
      simp only [noU, Bool.and_eq_true] at hU
      simp only [elwalkI, bind, Except.bind] at h
      cases h1 : elwalkI a st with
      | error e => rw [h1] at h; exact absurd h (by simp)
      | ok p =>
          obtain ⟨ra, st1⟩ := p
          rw [h1] at h
          simp only at h
          cases h2 : elwalkI b st1 with
          | error e => rw [h2] at h; exact absurd h (by simp)
          | ok q =>
              obtain ⟨rb, st2⟩ := q
              rw [h2] at h
              simp only at h
              cases h3 : elAlloc st2 "el_s_%d" (.ly (.ls a b)) with
              | mk v2 st3 =>
                  rw [h3] at h
                  simp only [Except.ok.injEq, Prod.mk.injEq] at h
                  rw [← h.2]
                  refine elAlloc_keys h3
                    (ihb st1 rb st2 hU.2 (iha st ra st1 hU.1 hk h1) h2) ?_
                  rw [show Fm.argZeroD (.ly (.ls a b)) = .ls a b from rfl]
                  simp [noU, hU.1, hU.2]
  | lt a b iha ihb =>
      intro st r st' hU hk h
      simp [elwalkI] at h

lemma ltlStep_noU {mc : Model} {js : List Fm} {st : ElSt} {k : Fm} {v : Sym}
    {res : Model × List Fm × ElSt}
    (hk : noU k.argZeroD = true)
    (h : ltlStep (mc, js, st) (k, v) = .ok res) :
    res.1.props = mc.props ∧ res.1.nextPropIdx = mc.nextPropIdx ∧
    res.2.1 = js := by
  unfold ltlStep at h
  simp only at h
  cases h1 : mc.add_state_var v with
  | error e => rw [h1] at h; exact absurd h (by simp [bind, Except.bind])
  | ok mc1 =>
      rw [h1] at h
      simp only [bind, Except.bind] at h
      have hmc1 := Model.add_state_var_ok h1
      subst hmc1
      cases h2 : elwalkI k.argZeroD st with
      | error e => rw [h2] at h; exact absurd h (by simp)
      | ok p =>
          obtain ⟨sat, st'⟩ := p
          rw [h2] at h
          simp only at h
          cases hF : k.isFutureLtl with
          | true =>
              rw [hF] at h
              simp only [if_true] at h
              cases hN : sat.hasNext with
              | true =>
                  have hmk : mkNext sat = .error .unexpectedNext := by
                    simp [mkNext, hN]
                  rw [hmk] at h
                  exact absurd h (by simp [bind, Except.bind])
              | false =>
                  have hmk : mkNext sat = .ok (.nxt sat) := by
                    simp [mkNext, hN]
                  rw [hmk] at h
                  simp only [bind, Except.bind] at h
                  cases h3 : Model.add_trans
                      { mc with stateVars := mc.stateVars ++ [v] }
                      (Fm.biimp (.va v) (.nxt sat)) with
                  | error e => rw [h3] at h; exact absurd h (by simp)
                  | ok mc2 =>
                      rw [h3] at h
                      try simp only at h
                      have hmc2 := Model.add_trans_ok h3
                      subst hmc2
                      rw [noU_isU hk] at h
                      simp only [Bool.false_eq_true, if_false, pure,
                        Except.pure, Except.ok.injEq] at h
                      simp [← h]
          | false =>
              rw [hF] at h
              simp only [Bool.false_eq_true, if_false] at h
              cases h3 : Model.add_trans
                  { mc with stateVars := mc.stateVars ++ [v] }
                  (Fm.biimp (.nxt (.va v)) sat) with
              | error e => rw [h3] at h; exact absurd h (by simp)
              | ok mc2 =>
                  rw [h3] at h
                  simp only [pure, Except.pure, Except.ok.injEq] at h
                  have hmc2 := Model.add_trans_ok h3
                  subst hmc2
                  simp [← h]

lemma ltl_loop_noU (el : List (Fm × Sym)) :
    ∀ (mc : Model) (js : List Fm) (st : ElSt) (res : Model × List Fm × ElSt),
      ElKeysNoU el →
      el.foldlM ltlStep (mc, js, st) = .ok res →
      res.1.props = mc.props ∧ res.1.nextPropIdx = mc.nextPropIdx ∧
      res.2.1 = js := by
  induction el with
  | nil =>
      intro mc js st res hkeys h
      simp only [List.foldlM_nil, pure, Except.pure, Except.ok.injEq] at h
      subst h
      exact ⟨rfl, rfl, rfl⟩
  | cons kv rest ih =>
      intro mc js st res hkeys h
      obtain ⟨k, v⟩ := kv
      rw [List.foldlM_cons] at h
      cases h1 : ltlStep (mc, js, st) (k, v) with
      | error e => rw [h1] at h; exact absurd h (by simp [bind, Except.bind])
      | ok acc1 =>
          rw [h1] at h
          simp only [bind, Except.bind] at h
          obtain ⟨mcx, jsx, stx⟩ := acc1
          have hq := ltlStep_noU (hkeys (k, v) (by simp)) h1
          have hrest : ElKeysNoU rest := by
            intro kv2 hm
            exact hkeys kv2 (List.mem_cons_of_mem _ hm)
          have hr := ih mcx jsx stx res hrest h
          refine ⟨?_, ?_, ?_⟩
          · rw [hr.1]; exact hq.1
          · rw [hr.2.1]; exact hq.2.1
          · rw [hr.2.2]; exact hq.2.2

/-- `make_single_justice` on the empty justice list produces the empty
conjunction (`TRUE`), no fresh state variables, no init constraints and no
trans constraints, leaving the counter unchanged. -/
lemma make_single_justice_nil (c : Nat) :
    make_single_justice [] c = (Fm.top, [], [], [], c) := by
  simp [make_single_justice, Fm.bigAnd]

/-- A purely past-time property (`Y(x ∧ y) ∧ (x S z)`), whose rewritten
negation contains no Until: the justice list stays empty. -/
def phiPast : Fm := .conj (.ly (.conj (.va xS) (.va yS))) (.ls (.va xS) (.va zS))
/-- The model produced by `ltl_encode` on `modelXYZ` and `phiPast`. -/
def c10res : Model := (ltl_encode modelXYZ phiPast).toOption.getD Model.empty

/-- **C10**: `make_single_justice []` returns the accepting condition `⊤`
(the empty conjunction) with no fresh state variables, no INIT constraints
and no TRANS constraints; consequently, whenever `ltl_encode` succeeds on a
property whose rewritten negation contains no Until operator, the returned
model carries the single live property `¬⊤` at index 0. -/
theorem make_single_justice_empty (c : Nat) (M : Model) (φ : Fm) (m' : Model)
    (hU : noU (ltlRewrite (mkNot φ)) = true)
    (hok : ltl_encode M φ = .ok m') :
    make_single_justice [] c = (Fm.top, [], [], [], c) ∧
    m'.props = [(0, PropKind.live, Fm.neg Fm.top)] := by
  refine ⟨make_single_justice_nil c, ?_⟩
  unfold ltl_encode at hok
  simp only [bind, Except.bind] at hok
  cases hw0 : elwalkI (ltlRewrite (mkNot φ)) ⟨[], 0⟩ with
  | error e => rw [hw0] at hok; exact absurd hok (by simp)
  | ok p0 =>
      obtain ⟨r0, st0⟩ := p0
      rw [hw0] at hok
      simp only at hok
      have hkeys : ElKeysNoU st0.el :=
        elwalkI_keys (ltlRewrite (mkNot φ)) ⟨[], 0⟩ r0 st0 hU
          (by intro kv hkv; cases hkv) hw0
      cases hcp : copyModel M with
      | error e => rw [hcp] at hok; exact absurd hok (by simp)
      | ok mc0 =>
          rw [hcp] at hok
          simp only at hok
          have hmc0 := copyModel_ok hcp
          subst hmc0
          cases hlp : st0.el.foldlM ltlStep
              (⟨M.stateVars, M.inputVars, M.init, M.trans, [], 0⟩, [], st0) with
          | error e => rw [hlp] at hok; exact absurd hok (by simp)
          | ok acc =>
              obtain ⟨mc1, js1, st1⟩ := acc
              rw [hlp] at hok
              simp only at hok
              obtain ⟨p1, p3, pj⟩ := ltl_loop_noU _ _ _ _ _ hkeys hlp
              simp only at p1 p3 pj
              subst pj
              cases hw1 : elwalkI (ltlRewrite (mkNot φ)) st1 with
              | error e => rw [hw1] at hok; exact absurd hok (by simp)
              | ok p1' =>
                  obtain ⟨satRoot, st2⟩ := p1'
                  rw [hw1] at hok
                  simp only at hok
                  cases hai : mc1.add_init satRoot with
                  | error e => rw [hai] at hok; exact absurd hok (by simp)
                  | ok mc2 =>
                      rw [hai] at hok
                      simp only at hok
                      have hmc2 := Model.add_init_ok hai
                      subst hmc2
                      rw [make_single_justice_nil st2.ctr] at hok
                      simp only [List.foldlM_nil, pure, Except.pure,
                        bind, Except.bind] at hok
                      cases hap : Model.add_live_property
                          { mc1 with init := mc1.init ++ [satRoot] }
                          (mkNot .top) with
                      | error e =>
                          rw [hap] at hok; exact absurd hok (by simp)
                      | ok q =>
                          obtain ⟨mc3, i⟩ := q
                          rw [hap] at hok
                          simp only [Except.ok.injEq] at hok
                          subst hok
                          unfold Model.add_live_property Model.add_property at hap
                          simp only at hap
                          have hff : Model.firstFreeIdx
                              { mc1 with init := mc1.init ++ [satRoot] }
                              ({ mc1 with init := mc1.init ++ [satRoot] } :
                                Model).nextPropIdx
                              (({ mc1 with init := mc1.init ++ [satRoot] } :
                                Model).props.length + 1) = 0 := by
                            simp [Model.firstFreeIdx, Model.isPropertyIdxFree,
                              p1, p3]
                          rw [hff] at hap
                          obtain ⟨hi, hm3⟩ := Model.addPropertyCore_ok hap
                          subst hm3
                          simp [p1, mkNot]

/-- Witness for C10 at the concrete model `modelXYZ` and the purely
past-time property `phiPast`. -/
theorem make_single_justice_empty_witness :
    make_single_justice [] 5 = (Fm.top, [], [], [], 5) ∧
    c10res.props = [(0, PropKind.live, Fm.neg Fm.top)] :=
  make_single_justice_empty 5 modelXYZ phiPast c10res (by decide) (by decide)

end Pyvmt
